import Mathlib

/-!
# risp — a tree-walking Lisp interpreter: shallow embedding and verification

This file embeds the core of the `risp` interpreter (an s-expression
reader built on a two-mode lexer, a symbol interner, a scope-stack
environment, a recursive evaluator with special forms / lambdas / macros,
and a trace/frame error-localization mechanism) in Lean 4, and proves the
specified properties about it.

Modelling conventions, fixed once for the whole file:

* Rust `f64` numbers are modelled as exact rationals `ℚ`.  The claims under
  verification only exercise integral values, where `f64` arithmetic,
  `Display` printing (plain decimal, no exponent) and `parse` are exact, so
  the rational model is faithful on everything the theorems touch.
* Rust `HashMap` is modelled as an association list with first-match
  lookup; `insert` prepends, which is observationally equivalent to
  replacement under first-match lookup (maps are never iterated).
* Rust `Vec` used as a stack (reader frames, scope stack) is modelled as a
  `List` whose *head* is the stack top (Rust pushes/pops at the vector
  end); `EvalError.trace` keeps Rust's order (push appends at the end),
  because `err.rs` indexes it from the back.
* Out-of-bounds indexing / slicing, which panics in Rust, is modelled by a
  dedicated `panic` outcome that propagates through every caller and is
  distinct from an `EvalError` (`exc.rs` errors).
* Byte offsets (`String::len`, `push_str`) coincide with character offsets
  on the ASCII inputs the claims use; we use character counts.
* Iterator `map`/`collect::<Result<_,_>>` chains in Rust stop at the first
  `Err` without evaluating the remaining elements; the embeddings
  short-circuit in the same way.
* Native built-ins are function pointers in Rust (`native.rs`); they are
  defunctionalized into the enumeration `NativeId` of exactly the
  primitives that `create_root` installs, dispatched by `applyNative`.
  This keeps values first-order and equality decidable.

The source tree mixes revisions of some files.  Where two files disagree,
the embedding follows the file the corresponding claim cites, and the
divergence is recorded in a comment at the definition.
-/

namespace Risp

/-- `lisp_object.rs`: `pub type Symbol = u64;` — interner ids are small
naturals, modelled as `Nat`. -/
abbrev Symbol := Nat

/-- Special-form tags.  `env.rs`'s `create_root` registers
`Def, Set, Fn, If, Let, Begin, Quote`, but `interpreter.rs`'s
`eval_special_form` — the evaluator the claims cite — has match arms only
for `Quote, Begin, Def, Set, If, Let` (Rust would reject a non-exhaustive
match, so the evaluator's revision of the enum has no `Fn`; in that
revision `fn`/`macro` forms are dispatched through `eval_form` by the
symbols `sym_fn`/`sym_macro`).  We embed the evaluator-consistent set.
`If`/`Let`/`Def`/`Set` collide with Lean keywords and carry an `F`
suffix. -/
inductive SpecialForm where
  | defF | setF | ifF | letF | beginF | quoteF
deriving DecidableEq, Repr

/-- `Display for SpecialForm` (`lisp_object.rs`, extended with the
`Let`/`Begin` variants the newer enum has, printed as their source
keywords just like the others). -/
def SpecialForm.toStr : SpecialForm → String
  | .defF => "def"
  | .setF => "set"
  | .ifF => "if"
  | .letF => "let"
  | .beginF => "begin"
  | .quoteF => "quote"

/-- Identifies one of the native primitives installed by
`env.rs::create_root` (defunctionalization of the Rust function pointer in
`LispObject::Native`). -/
inductive NativeId where
  | add | multiply | subtract | equal | first | rest
deriving DecidableEq, Repr

/-- `lisp_object.rs` (newer revision used by `env.rs`/`interpreter.rs`):
`pub type ParamList = (Vec<Symbol>, Option<Symbol>);` -/
abbrev ParamList := List Symbol × Option Symbol

/-- The value/AST union (`lisp_object.rs`, in the newer revision that
`env.rs::serialize_object` and `interpreter.rs` consume: it has
`ParamList`-carrying `Native`/`Lambda` and a `Macro` variant; the `macro`
keyword forces the constructor name `mac`).  `Number` carries `ℚ`
modelling `f64` (see the header). -/
inductive LispObject where
  | bool (b : Bool)
  | specialForm (sf : SpecialForm)
  | symbol (s : Symbol)
  | string (s : String)
  | number (n : ℚ)
  | list (l : List LispObject)
  | native (ps : ParamList) (id : NativeId)
  | lambda (ps : ParamList) (body : List LispObject)
  | mac (ps : ParamList) (body : List LispObject)

abbrev Sexpr := List LispObject

/-- `lisp_object.rs`: the evaluation-error value.  `trace` is the index
path within the current frame (Rust pushes at the *end* of the `Vec`);
`frames` are `(form, trace, place)` snapshots — the newer revision carries
the optional `place` label, as destructured by
`err.rs::handle_eval_error`. -/
structure EvalError where
  message : String
  frames : List (LispObject × List Nat × Option String)
  trace : List Nat

/-- `EvalError::new`. -/
def EvalError.new (message : String) : EvalError :=
  { message := message, trace := [], frames := [] }

/-- `EvalError::trace` — pushes a child index at the end of the current
trace (named `traceP` to keep the field name `trace` free). -/
def EvalError.traceP (e : EvalError) (index : Nat) : EvalError :=
  { e with trace := e.trace ++ [index] }

/-- `EvalError::frame` (newer revision, with the optional place label used
by `interpreter.rs::handle_line` and `err.rs`): snapshots the current
`(expr, trace, place)` and clears the trace. -/
def EvalError.frameP (e : EvalError) (expr : LispObject) (place : Option String) :
    EvalError :=
  { e with frames := e.frames ++ [(expr, e.trace, place)], trace := [] }

/-! ## Decimal rendering and parsing of numbers

`serialize_object` renders a number with Rust's `f64` `Display`
(`n.to_string()`), which prints integral values as plain decimal integers
with no exponent and no trailing `.0`; the lexer's number callback parses
the matched slice back with `str::parse::<f64>`, exact on integral input.
We model both for the integral rationals the claims exercise, with fueled
(hence kernel-computable) digit recursions. -/

/-- The decimal digit characters, by value (explicit table keeps every
proof a case split, with no `Char.ofNat` side conditions). -/
def digitChar : Nat → Char
  | 0 => '0' | 1 => '1' | 2 => '2' | 3 => '3' | 4 => '4'
  | 5 => '5' | 6 => '6' | 7 => '7' | 8 => '8' | _ => '9'

/-- Numeric value of a decimal digit character (0 on non-digits). -/
def charVal (c : Char) : Nat :=
  if c = '0' then 0 else if c = '1' then 1 else if c = '2' then 2
  else if c = '3' then 3 else if c = '4' then 4 else if c = '5' then 5
  else if c = '6' then 6 else if c = '7' then 7 else if c = '8' then 8
  else 9

/-- Least-significant-first decimal digits of `n`; any `fuel > 0` with
`n < 10 ^ fuel` (in particular `fuel = n + 1`) is enough. -/
def natDigitsRev (fuel n : Nat) : List Char :=
  match fuel with
  | 0 => []
  | f + 1 => if n < 10 then [digitChar n] else digitChar (n % 10) :: natDigitsRev f (n / 10)

/-- Decimal rendering of a natural number, most significant digit first. -/
def natDecimal (n : Nat) : List Char :=
  (natDigitsRev (n + 1) n).reverse

/-- Decimal rendering of an integer (Rust `Display`, also the integral
`f64` rendering). -/
def intDecimal (z : Int) : List Char :=
  if z < 0 then '-' :: natDecimal z.natAbs else natDecimal z.natAbs

/-- Value of least-significant-first digit characters. -/
def digitsValRev : List Char → Nat
  | [] => 0
  | c :: rest => charVal c + 10 * digitsValRev rest

/-- Value of most-significant-first digit characters. -/
def digitsVal (cs : List Char) : Nat := digitsValRev cs.reverse

/-- `serialize_object`'s number case (`format!("{}", n.to_string())`),
modelled exactly on integral values; a non-integral rational is rendered
`num/den`, standing in for the shortest-round-trip decimal of the `f64` it
models (no claim exercises this branch). -/
def numToString (q : ℚ) : String :=
  if q.den = 1 then ⟨intDecimal q.num⟩
  else ⟨intDecimal q.num⟩ ++ "/" ++ ⟨natDecimal q.den⟩

/-! ## Symbol interner (`env.rs::Symbols`) -/

/-- `env.rs::Symbols`: the interner state.  `registry`/`reverse` model the
two `HashMap`s as association lists (first-match lookup).  The eagerly
interned well-known ids are fields, as in the source; `interpreter.rs`'s
`parse_function_def` additionally reads `sym_fn` and `sym_macro`
(spelled `sym_mac`: `macro` is a Lean keyword), which the `Symbols`
revision in `env.rs` predates — they are modelled as two further names
interned eagerly at construction, per that usage. -/
structure Symbols where
  registry : List (String × Symbol)
  reverse : List (Symbol × String)
  next_id : Symbol
  sym_quote : Symbol
  sym_quasiquote : Symbol
  sym_unquote : Symbol
  sym_unquote_splice : Symbol
  sym_rest : Symbol
  sym_fn : Symbol
  sym_mac : Symbol

/-- `Symbols::intern`: return the id registered for `name`, or allocate
`next_id + 1` and register it both ways.  Returns the id together with
the updated interner (the Rust method mutates `self`). -/
def Symbols.intern (s : Symbols) (name : String) : Symbol × Symbols :=
  match s.registry.lookup name with
  | some id => (id, s)
  | none =>
      let id := s.next_id + 1
      (id, { s with
              registry := (name, id) :: s.registry
              reverse := (id, name) :: s.reverse
              next_id := id })

/-- `Symbols::new`: fresh interner with the well-known names interned
eagerly (ids start at 1). -/
def Symbols.new : Symbols :=
  let s0 : Symbols :=
    { registry := [], reverse := [], next_id := 0
      sym_quote := 0, sym_quasiquote := 0, sym_unquote := 0
      sym_unquote_splice := 0, sym_rest := 0, sym_fn := 0, sym_mac := 0 }
  let (q, s1) := s0.intern "quote"
  let (qq, s2) := s1.intern "quasiquote"
  let (uq, s3) := s2.intern "unquote"
  let (uqs, s4) := s3.intern "unquote-splice"
  let (rst, s5) := s4.intern "&rest"
  let (fnId, s6) := s5.intern "fn"
  let (macId, s7) := s6.intern "macro"
  { s7 with
      sym_quote := q, sym_quasiquote := qq, sym_unquote := uq
      sym_unquote_splice := uqs, sym_rest := rst, sym_fn := fnId, sym_mac := macId }

/-- `Symbols::symbol`: intern a name and wrap it as a `Symbol` object. -/
def Symbols.symbol (s : Symbols) (name : String) : LispObject × Symbols :=
  let (id, s') := s.intern name
  (.symbol id, s')

/-- `Symbols::quote`: wrap `obj` as `(quote obj)` (reads `sym_quote` only;
the Rust `&mut self` never actually interns here). -/
def Symbols.quoteObj (s : Symbols) (obj : LispObject) : LispObject :=
  .list [.symbol s.sym_quote, obj]

/-- `Symbols::quasi_quote`. -/
def Symbols.quasiQuoteObj (s : Symbols) (obj : LispObject) : LispObject :=
  .list [.symbol s.sym_quasiquote, obj]

/-- `Symbols::unquote`. -/
def Symbols.unquoteObj (s : Symbols) (obj : LispObject) : LispObject :=
  .list [.symbol s.sym_unquote, obj]

/-- `Symbols::unquote_splice`. -/
def Symbols.unquoteSpliceObj (s : Symbols) (obj : LispObject) : LispObject :=
  .list [.symbol s.sym_unquote_splice, obj]

/-- `Symbols::as_string`: reverse lookup, diagnostics only. -/
def Symbols.as_string (s : Symbols) (sym : Symbol) : Option String :=
  s.reverse.lookup sym

/-- `serialize_param_list`'s positional part (`env.rs`): names joined by
single spaces. -/
def Symbols.posParamsToString (s : Symbols) (ps : List Symbol) : String :=
  String.intercalate " " (ps.map (fun o => (s.as_string o).getD "~~uninterned~~"))

/-- `serialize_param_list` (`env.rs`). -/
def Symbols.serialize_param_list (s : Symbols) (lst : ParamList) : String :=
  let posStr := s.posParamsToString lst.1
  let restStr := match lst.2 with
    | some r => " &rest " ++ ((s.as_string r).getD "~~uninterned~~")
    | none => ""
  "(" ++ posStr ++ restStr ++ ")"

mutual

/-- `env.rs::Symbols::form_to_string`: elements serialized and joined by
single spaces. -/
def Symbols.form_to_string (s : Symbols) (l : List LispObject) : String :=
  match l with
  | [] => ""
  | [o] => s.serialize_object o
  | o :: rest => s.serialize_object o ++ " " ++ s.form_to_string rest

/-- `env.rs::serialize_object` (the revision with `Macro`/`Lambda`
variants; note the source really does render a `Macro` *without* outer
parentheses and with no space before the body). -/
def Symbols.serialize_object (s : Symbols) (obj : LispObject) : String :=
  match obj with
  | .symbol sym => (s.as_string sym).getD "~~uninterned~~"
  | .list l => "(" ++ s.form_to_string l ++ ")"
  | .mac ps fs => "macro " ++ s.serialize_param_list ps ++ s.form_to_string fs
  | .lambda ps fs => "(fn " ++ s.serialize_param_list ps ++ " " ++ s.form_to_string fs ++ ")"
  | .bool true => "#t"
  | .bool false => "#f"
  | .specialForm sf => sf.toStr
  | .string str => "\"" ++ str ++ "\""
  | .number n => numToString n
  | .native ps _ => "(~~ " ++ s.serialize_param_list ps ++ " ~~)"

end

/-! ## Environment (`env.rs::Env`) -/

/-- One scope: `HashMap<Symbol, LispObject>` as an association list;
`insert` prepends, equivalent to replacement under first-match lookup. -/
abbrev Scope := List (Symbol × LispObject)

/-- `env.rs::Env`: the scope stack.  The list *head* is the innermost
scope (Rust pushes at the `Vec`'s end and resolves back-to-front). -/
structure Env where
  vars : List Scope

/-- `Env::new`: one (global) scope. -/
def Env.new : Env := { vars := [[]] }

/-- `Env::push_scope`. -/
def Env.push_scope (e : Env) : Env := { vars := [] :: e.vars }

/-- `Env::pop_scope` (`Vec::pop` on an empty stack is a no-op, like
`List.tail`). -/
def Env.pop_scope (e : Env) : Env := { vars := e.vars.tail }

/-- `Env::set`: bind in the current (innermost) scope only
(`vars.last_mut()` in Rust's ordering; a no-op on an empty stack, as
`and_then` is). -/
def Env.set (e : Env) (key : Symbol) (value : LispObject) : Env :=
  { vars := match e.vars with
            | [] => []
            | sc :: rest => ((key, value) :: sc) :: rest }

/-- Helper for `Env::global`: update the last element (the bottom/global
scope in our innermost-first ordering, `vars.first_mut()` in Rust's). -/
def updateLastScope (key : Symbol) (value : LispObject) : List Scope → List Scope
  | [] => []
  | [sc] => [(key, value) :: sc]
  | sc :: rest => sc :: updateLastScope key value rest

/-- `Env::global`: bind in the bottommost (global) scope. -/
def Env.global (e : Env) (key : Symbol) (value : LispObject) : Env :=
  { vars := updateLastScope key value e.vars }

/-- `Env::resolve`: innermost-to-outermost scan, first hit wins. -/
def Env.resolve (e : Env) (key : Symbol) : Option LispObject :=
  resolveScopes e.vars key
where
  resolveScopes : List Scope → Symbol → Option LispObject
    | [], _ => none
    | sc :: rest, k =>
        match sc.lookup k with
        | some v => some v
        | none => resolveScopes rest k

/-! ## Lexer (`lexer.rs`)

Two cooperating `logos`-generated sub-lexers sharing one cursor; emitting
`StartString` switches to string mode, emitting `EndString` switches
back.  `logos` resolves pattern overlap by the declared priorities
(`lexer.rs` assigns `LBrace`/`RBrace` 4, the literal tokens `#t`/`#f`
their default 4, `Number` 3, `StartString` 2, the catch-all `Symbol`
regex `[^\s\(\)]+` 1); whitespace `[ \t\n\f]+` is skipped in normal mode.
The embedding consumes one fuel unit per emitted token, so the input
length bounds the fuel needed.

Note for the reader-macro tokens: `reader.rs::parse_sexp` matches on
`ObjectT::Quote`/`QuasiQuote`/`Unquote`/`UnquoteSplice`, but the `ObjectT`
in the tree's `lexer.rs` (lines 3–22) declares no such variants — the two
files are different revisions and do not compile together.  We keep the
constructors so the reader can be embedded verbatim, while `lexAll`,
faithful to `lexer.rs`, never produces them: `'`, `` ` ``, `,`, `,@` fall
into the catch-all symbol pattern. -/

/-- Whitespace skipped between normal-mode tokens (`[ \t\n\f]+`). -/
def isLexWs (c : Char) : Bool :=
  c = ' ' || c = '\t' || c = '\n' || c = '\x0c'

/-- A character the catch-all symbol regex `[^\s\(\)]+` accepts. -/
def isSymChar (c : Char) : Bool :=
  !isLexWs c && c ≠ '(' && c ≠ ')'

/-- A character the string-mode text regex `[^\\"]+` accepts. -/
def isTextChar (c : Char) : Bool :=
  c ≠ '"' && c ≠ '\\'

/-- `ObjectT` (`lexer.rs`, normal mode), plus the four reader-macro
prefix variants that `reader.rs` requires but this `lexer.rs` revision
lacks (see the section comment; `lexAll` never emits them). -/
inductive ObjectT where
  | trueT | falseT | lbrace | rbrace
  | number (n : ℚ)
  | startString
  | symbol (s : String)
  | quoteT | quasiQuoteT | unquoteT | unquoteSpliceT
  | errorT
deriving DecidableEq

/-- `StringT` (`lexer.rs`, string mode). -/
inductive StringT where
  | errorT
  | text (s : String)
  | endString
deriving DecidableEq

/-- `Tokens` (`lexer.rs`). -/
inductive Tokens where
  | object (t : ObjectT)
  | string (t : StringT)
deriving DecidableEq

/-- The two lexer modes (`Modes` in `lexer.rs`, minus the borrowed
cursor, which the explicit character list replaces). -/
inductive LexMode where
  | object
  | string
deriving DecidableEq

/-- The `f64` value of a matched number slice: optional sign, integer
digits `d1`, fractional digits `d2` (`str::parse::<f64>` on the slice;
exact on the integral inputs the claims use). `-` is applied by `if` so
the integral branch stays free of non-reducing `ℚ` arithmetic. -/
def numValue (neg : Bool) (d1 d2 : List Char) : ℚ :=
  let ip : ℚ := (digitsVal d1 : Nat)
  let v : ℚ := if d2.isEmpty then ip else ip + (digitsVal d2 : Nat) / (10 : ℚ) ^ d2.length
  if neg then -v else v

/-- Maximal-munch match of the number regex
`-?([0-9]*\.[0-9]+|[0-9]+)` at the start of `cs`; returns the parsed
value and the rest of the input.  (Stated with `head?` tests rather than
character pattern matching; the two are equivalent and this form rewrites
cleanly.) -/
def numMatch (cs : List Char) : Option (ℚ × List Char) :=
  let neg : Bool := cs.head? = some '-'
  let cs1 := if neg then cs.tail else cs
  let d1 := cs1.takeWhile Char.isDigit
  let r1 := cs1.dropWhile Char.isDigit
  if r1.head? = some '.' then
    let r2 := r1.tail
    let d2 := r2.takeWhile Char.isDigit
    if d2.isEmpty then
      if d1.isEmpty then none else some (numValue neg d1 [], r1)
    else some (numValue neg d1 d2, r2.dropWhile Char.isDigit)
  else if d1.isEmpty then none else some (numValue neg d1 [], r1)

/-- The full token stream of the input, starting in `mode`.  One fuel
unit per emitted token; `fuel = length + 1` always suffices since every
token consumes at least one character.  Each normal-mode step first
skips whitespace, then picks the token by the `logos` priorities
(parens and `#t`/`#f`, then number, then string-start, then the
catch-all symbol run; every non-paren non-whitespace character is a
symbol character, so the explicit `Error` token is unreachable in
normal mode, while string mode emits it for a bare backslash). -/
def lexAll (fuel : Nat) (mode : LexMode) (cs : List Char) : List Tokens :=
  match fuel with
  | 0 => []
  | f + 1 =>
    match mode with
    | .object =>
      match cs.dropWhile isLexWs with
      | [] => []
      | '(' :: t => .object .lbrace :: lexAll f .object t
      | ')' :: t => .object .rbrace :: lexAll f .object t
      | '#' :: 't' :: t => .object .trueT :: lexAll f .object t
      | '#' :: 'f' :: t => .object .falseT :: lexAll f .object t
      | c :: t =>
        match numMatch (c :: t) with
        | some (n, rest) => .object (.number n) :: lexAll f .object rest
        | none =>
          if c = '"' then .object .startString :: lexAll f .string t
          else
            .object (.symbol ⟨(c :: t).takeWhile isSymChar⟩) ::
              lexAll f .object ((c :: t).dropWhile isSymChar)
    | .string =>
      match cs with
      | [] => []
      | '"' :: t => .string .endString :: lexAll f .object t
      | '\\' :: t => .string .errorT :: lexAll f .string t
      | c :: t =>
          .string (.text ⟨(c :: t).takeWhile isTextChar⟩) ::
            lexAll f .string ((c :: t).dropWhile isTextChar)

/-- Lex a whole input chunk from normal mode (the `Lexer::new` +
iteration protocol of `lexer.rs`; the reader embedding consumes this
pre-computed stream instead of pulling tokens one at a time, which is
observationally the same because the lexer switches modes autonomously).
The `ReadError` span payloads (`lexer.span()`) are not modelled; no
claim inspects them. -/
def lexObjects (s : String) : List Tokens :=
  lexAll (s.length + 1) .object s.data

/-! ## Reader (`reader.rs`) -/

/-- `reader.rs::ReadError`, without the `(usize, usize)` span payloads
(see `lexObjects`). -/
inductive ReadError where
  | unknownCharacter
  | unexpectedRbrace
  | unexpectedEndOfString
  | internalError
deriving DecidableEq

/-- `reader.rs::ReaderFrame`. -/
inductive ReaderFrame where
  | sexpr (l : List LispObject)
  | quote | quasiQuote | unquote | unquoteSplice

/-- `reader.rs::Reader`: the frame stack, head = top (Rust pushes at the
`Vec` end). -/
structure Reader where
  stack : List ReaderFrame

/-- `Reader::new`. -/
def Reader.new : Reader := ⟨[]⟩

/-- `Reader::len`. -/
def Reader.len (r : Reader) : Nat := r.stack.length

/-- `Reader::handle_obj`: route a completed object through the pending
prefix frames; returns `some` when the stack empties (a finished
top-level form) and `none` when the object is appended to an open list
frame. -/
def handleObj (syms : Symbols) : List ReaderFrame → LispObject →
    Option LispObject × List ReaderFrame
  | [], obj => (some obj, [])
  | .quote :: rest, obj => handleObj syms rest (syms.quoteObj obj)
  | .quasiQuote :: rest, obj => handleObj syms rest (syms.quasiQuoteObj obj)
  | .unquote :: rest, obj => handleObj syms rest (syms.unquoteObj obj)
  | .unquoteSplice :: rest, obj => handleObj syms rest (syms.unquoteSpliceObj obj)
  | .sexpr lst :: rest, obj => (none, .sexpr (lst ++ [obj]) :: rest)

/-- `Reader::parse_string`: accumulate text tokens until the closing
quote. -/
def parseString (ts : List Tokens) (acc : String) :
    Except ReadError (LispObject × List Tokens) :=
  match ts with
  | [] => .error .unexpectedEndOfString
  | .object _ :: _ => .error .internalError
  | .string .errorT :: _ => .error .unknownCharacter
  | .string (.text s) :: rest => parseString rest (acc ++ s)
  | .string .endString :: rest => .ok (.string acc, rest)

/-- `Reader::parse_sexp`: the token loop.  One fuel unit per loop
iteration; every iteration consumes at least one token, so
`fuel = tokens + 1` always suffices (fuel exhaustion, which cannot occur
at the call sites, is mapped to the internal-error kind).  The
close-paren arm inlines `Reader::pop_list`. -/
def parseSexp (fuel : Nat) (syms : Symbols) (rd : Reader) (ts : List Tokens) :
    Except ReadError (Option LispObject × Symbols × Reader × List Tokens) :=
  match fuel with
  | 0 => .error .internalError
  | f + 1 =>
    match ts with
    | [] => .ok (none, syms, rd, [])
    | .string _ :: _ => .error .internalError
    | .object .errorT :: _ => .error .unknownCharacter
    | .object .quoteT :: rest => parseSexp f syms ⟨.quote :: rd.stack⟩ rest
    | .object .quasiQuoteT :: rest => parseSexp f syms ⟨.quasiQuote :: rd.stack⟩ rest
    | .object .unquoteT :: rest => parseSexp f syms ⟨.unquote :: rd.stack⟩ rest
    | .object .unquoteSpliceT :: rest => parseSexp f syms ⟨.unquoteSplice :: rd.stack⟩ rest
    | .object .lbrace :: rest => parseSexp f syms ⟨.sexpr [] :: rd.stack⟩ rest
    | .object .rbrace :: rest =>
        match rd.stack with
        | .sexpr lst :: s' =>
            match handleObj syms s' (.list lst) with
            | (some a, s'') => .ok (some a, syms, ⟨s''⟩, rest)
            | (none, s'') => parseSexp f syms ⟨s''⟩ rest
        | _ => .error .unexpectedRbrace
    | .object (.symbol s) :: rest =>
        let (obj, syms') := syms.symbol s
        (match handleObj syms' rd.stack obj with
         | (some a, s'') => .ok (some a, syms', ⟨s''⟩, rest)
         | (none, s'') => parseSexp f syms' ⟨s''⟩ rest)
    | .object .startString :: rest =>
        match parseString rest "" with
        | .error e => .error e
        | .ok (obj, rest') =>
            match handleObj syms rd.stack obj with
            | (some a, s'') => .ok (some a, syms, ⟨s''⟩, rest')
            | (none, s'') => parseSexp f syms ⟨s''⟩ rest'
    | .object .trueT :: rest =>
        match handleObj syms rd.stack (.bool true) with
        | (some a, s'') => .ok (some a, syms, ⟨s''⟩, rest)
        | (none, s'') => parseSexp f syms ⟨s''⟩ rest
    | .object .falseT :: rest =>
        match handleObj syms rd.stack (.bool false) with
        | (some a, s'') => .ok (some a, syms, ⟨s''⟩, rest)
        | (none, s'') => parseSexp f syms ⟨s''⟩ rest
    | .object (.number n) :: rest =>
        match handleObj syms rd.stack (.number n) with
        | (some a, s'') => .ok (some a, syms, ⟨s''⟩, rest)
        | (none, s'') => parseSexp f syms ⟨s''⟩ rest

/-- The loop of `Reader::partial`: collect completed top-level forms
until `parse_sexp` reports the chunk exhausted.  One fuel unit per
completed form; each completed form consumes at least one token. -/
def feedLoop (fuel : Nat) (syms : Symbols) (rd : Reader) (prog : List LispObject)
    (ts : List Tokens) : Except ReadError (Symbols × Reader × List LispObject) :=
  match fuel with
  | 0 => .error .internalError
  | f + 1 =>
    match parseSexp (ts.length + 1) syms rd ts with
    | .error e => .error e
    | .ok (none, syms', rd', _) => .ok (syms', rd', prog)
    | .ok (some a, syms', rd', rest) => feedLoop f syms' rd' (prog ++ [a]) rest

/-- `Reader::partial` (the name is renamed; `partial` is a Lean keyword):
lex one input chunk and collect the completed forms, leaving unfinished
frames on the reader's stack for the next chunk. -/
def Reader.feedChunk (rd : Reader) (syms : Symbols) (input : String) :
    Except ReadError (Symbols × Reader × List LispObject) :=
  feedLoop (input.length + 2) syms rd [] (lexObjects input)

/-! ## Evaluation outcomes

Rust evaluation returns `Result<LispObject, E>`; an out-of-bounds index
or slice additionally panics, which no `Result` represents.  `Res ε α`
totalizes both: `panic` models a Rust panic (it propagates through every
caller and is never caught), and `fuelOut` models exhaustion of the
recursion-depth fuel that stands in for the host call stack. -/
inductive Res (ε α : Type) where
  | ok (a : α)
  | err (e : ε)
  | panic (msg : String)
  | fuelOut

/-- Map the error component of a `Res` (`map_err`). -/
def Res.mapErr {ε ε' α : Type} (f : ε → ε') : Res ε α → Res ε' α
  | .ok a => .ok a
  | .err e => .err (f e)
  | .panic m => .panic m
  | .fuelOut => .fuelOut

/-! ## `exc.rs` -/

/-- `exc::apply_unimpl`. -/
def apply_unimpl : EvalError :=
  .new "apply only implemented for Native, Lambda and Special Form"

/-- `exc::apply_empty`. -/
def apply_empty : EvalError :=
  .new "apply received empty form"

/-- `exc::unbound_symbol`. -/
def unbound_symbol (sym : Option String) : EvalError :=
  .new ("Unbound symbol '" ++ sym.getD "~~uninterned~~" ++ "'")

/-- `exc::unexpected_lambda`. -/
def unexpected_lambda : EvalError :=
  .new "Unexpected lambda. This is probably an internal error."

/-- `exc::unexpected_special_form`. -/
def unexpected_special_form : EvalError :=
  .new "Unexpected special form. This is probably an internal error."

/-! ## `lisp_object.rs` accessors -/

/-- `LispObject::as_bool`. -/
def LispObject.as_bool : LispObject → Res EvalError Bool
  | .bool b => .ok b
  | _ => .err (.new "Expected a bool")

/-- `LispObject::as_number`. -/
def LispObject.as_number : LispObject → Res EvalError ℚ
  | .number n => .ok n
  | _ => .err (.new "Expected a number")

/-- `LispObject::as_symbol`. -/
def LispObject.as_symbol : LispObject → Res EvalError Symbol
  | .symbol s => .ok s
  | _ => .err (.new "Expected a symbol")

/-- `LispObject::as_symbol().ok()` as used at `interpreter.rs`'s
`def_frame` call sites. -/
def LispObject.asSymbolOpt : LispObject → Option Symbol
  | .symbol s => some s
  | _ => none

/-- `LispObject::as_list` (clones the vector; value semantics make the
copy implicit). -/
def LispObject.as_list : LispObject → Res EvalError (List LispObject)
  | .list l => .ok l
  | _ => .err (.new "Expected a list")

/-! ## `lisp_object_util.rs` -/

/-- `interpreter.rs`'s `Match` selector for the arity check (the
`assert_args(Match::Exact/Min, ...)` form of the
`assert_exact_form_args`/`assert_min_form_args` pair in
`lisp_object_util.rs`). -/
inductive ArgMatch where
  | exact
  | min
deriving DecidableEq

/-- The arity-error message of `assert_exact_form_args`. -/
def exactArgsMsg (description : String) (len actual : Nat) : String :=
  description ++ " requires exactly " ++ toString len ++ " arguments, got " ++ toString actual

/-- The arity-error message of `assert_min_form_args`. -/
def minArgsMsg (description : String) (len actual : Nat) : String :=
  description ++ " requires at least " ++ toString len ++ " arguments, got " ++ toString actual

/-- `assert_args`: `Exact` requires `form.len() == len`, `Min` requires
`form.len() >= len` (the `description` closure is forced eagerly; it is
pure). -/
def assert_args (m : ArgMatch) (form : List LispObject) (len : Nat)
    (description : String) : Res EvalError Unit :=
  match m with
  | .exact =>
      if form.length ≠ len then .err (.new (exactArgsMsg description len form.length))
      else .ok ()
  | .min =>
      if form.length < len then .err (.new (minArgsMsg description len form.length))
      else .ok ()

/-- `as_numbers`: convert all elements, reporting the first failing
index. -/
def as_numbers : List LispObject → Res (EvalError × Nat) (List ℚ) :=
  go 0
where
  go (index : Nat) : List LispObject → Res (EvalError × Nat) (List ℚ)
    | [] => .ok []
    | o :: rest =>
        match o.as_number with
        | .ok n =>
            (match go (index + 1) rest with
             | .ok ns => .ok (n :: ns)
             | .err e => .err e
             | .panic m => .panic m
             | .fuelOut => .fuelOut)
        | .err e => .err (e, index)
        | .panic m => .panic m
        | .fuelOut => .fuelOut

/-- `as_symbols`: convert all elements, reporting the first failing
index. -/
def as_symbols : List LispObject → Res (EvalError × Nat) (List Symbol) :=
  go 0
where
  go (index : Nat) : List LispObject → Res (EvalError × Nat) (List Symbol)
    | [] => .ok []
    | o :: rest =>
        match o.as_symbol with
        | .ok s =>
            (match go (index + 1) rest with
             | .ok ss => .ok (s :: ss)
             | .err e => .err e
             | .panic m => .panic m
             | .fuelOut => .fuelOut)
        | .err e => .err (e, index)
        | .panic m => .panic m
        | .fuelOut => .fuelOut

/-! ## Native primitives (`native.rs`)

Each native receives the argument vector its `ParamList` binding
produced (positional values, then — when a rest parameter is declared —
one `List` holding the rest).  Rust indexes `args[0]`/`args[1]`
directly; an out-of-range index panics, which the `panic` outcome
records.  The `NativeDef` name/parameter metadata lives in
`rootNatives` below. -/

/-- `native.rs::add`: `args[0]` is the rest-collected `terms` list. -/
def nativeAdd (args : List LispObject) : Res EvalError LispObject :=
  match args with
  | [] => .panic "index out of bounds"
  | a :: _ =>
      match a.as_list with
      | .ok terms =>
          (match as_numbers terms with
           | .ok ns => .ok (.number (ns.foldl (· + ·) 0))
           | .err (e, index) => .err (e.traceP (index + 1))
           | .panic m => .panic m
           | .fuelOut => .fuelOut)
      | .err e => .err e
      | .panic m => .panic m
      | .fuelOut => .fuelOut

/-- `native.rs::multiply`. -/
def nativeMultiply (args : List LispObject) : Res EvalError LispObject :=
  match args with
  | [] => .panic "index out of bounds"
  | a :: _ =>
      match a.as_list with
      | .ok factors =>
          (match as_numbers factors with
           | .ok ns => .ok (.number (ns.foldl (· * ·) 1))
           | .err (e, index) => .err (e.traceP (index + 1))
           | .panic m => .panic m
           | .fuelOut => .fuelOut)
      | .err e => .err e
      | .panic m => .panic m
      | .fuelOut => .fuelOut

/-- `native.rs::subtract`: mandatory minuend `args[0]`, rest-collected
subtrahends `args[1]`. -/
def nativeSubtract (args : List LispObject) : Res EvalError LispObject :=
  match args with
  | [] | [_] => .panic "index out of bounds"
  | a :: b :: _ =>
      match a.as_number.mapErr (·.traceP 1) with
      | .ok minu =>
          (match b.as_list with
           | .ok subs =>
               (match as_numbers subs with
                | .ok ns => .ok (.number (minu - ns.foldl (· + ·) 0))
                | .err (e, index) => .err (e.traceP (index + 2))
                | .panic m => .panic m
                | .fuelOut => .fuelOut)
           | .err e => .err e
           | .panic m => .panic m
           | .fuelOut => .fuelOut)
      | .err e => .err e
      | .panic m => .panic m
      | .fuelOut => .fuelOut

/-- `native.rs::equal`: numeric or symbol equality; other types are an
error. -/
def nativeEqual (args : List LispObject) : Res EvalError LispObject :=
  match args with
  | [] | [_] => .panic "index out of bounds"
  | a :: b :: _ =>
      match a with
      | .number op0 =>
          (match b.as_number.mapErr (·.traceP 2) with
           | .ok op1 => .ok (.bool (op0 = op1))
           | .err e => .err e
           | .panic m => .panic m
           | .fuelOut => .fuelOut)
      | .symbol op0 =>
          (match b.as_symbol.mapErr (·.traceP 2) with
           | .ok op1 => .ok (.bool (op0 = op1))
           | .err e => .err e
           | .panic m => .panic m
           | .fuelOut => .fuelOut)
      | _ => .err ((EvalError.new "equal not implemented for type").traceP 1)

/-- `native.rs::first`: `lst[0].clone()` — *no* emptiness guard, so the
empty list panics (the claim C10 subject). -/
def nativeFirst (args : List LispObject) : Res EvalError LispObject :=
  match args with
  | [] => .panic "index out of bounds"
  | a :: _ =>
      match a.as_list with
      | .ok lst =>
          (match lst with
           | [] => .panic "index out of bounds"
           | x :: _ => .ok x)
      | .err e => .err e
      | .panic m => .panic m
      | .fuelOut => .fuelOut

/-- `native.rs::rest`: explicitly guards the empty list and returns the
empty list for it. -/
def nativeRest (args : List LispObject) : Res EvalError LispObject :=
  match args with
  | [] => .panic "index out of bounds"
  | a :: _ =>
      match a.as_list with
      | .ok lst =>
          (match lst with
           | [] => .ok (.list [])
           | _ :: t => .ok (.list t))
      | .err e => .err e
      | .panic m => .panic m
      | .fuelOut => .fuelOut

/-- Dispatch a defunctionalized native function pointer. -/
def applyNative (id : NativeId) (args : List LispObject) : Res EvalError LispObject :=
  match id with
  | .add => nativeAdd args
  | .multiply => nativeMultiply args
  | .subtract => nativeSubtract args
  | .equal => nativeEqual args
  | .first => nativeFirst args
  | .rest => nativeRest args

/-! ## Root environment (`env.rs::create_root`) -/

/-- `NativeDef` (`lisp_object.rs`, newer revision): name, positional
parameter names, optional rest parameter name, function. -/
structure NativeDef where
  name : String
  positional : List String
  rest : Option String
  func : NativeId

/-- The `NativeDef` table of `native.rs` (`ADD` … `REST`), in the order
`create_root` installs them. -/
def rootNatives : List NativeDef :=
  [ { name := "+", positional := [], rest := some "terms", func := .add },
    { name := "*", positional := [], rest := some "factors", func := .multiply },
    { name := "-", positional := ["min"], rest := some "subs", func := .subtract },
    { name := "=", positional := ["o1", "o2"], rest := none, func := .equal },
    { name := "first", positional := ["lst"], rest := none, func := .first },
    { name := "rest", positional := ["lst"], rest := none, func := .rest } ]

/-- Intern a list of names left to right (the iterator order of
`set_native`'s `map(|s| sym.intern(s))`). -/
def internAll (sym : Symbols) : List String → List Symbol × Symbols
  | [] => ([], sym)
  | s :: rest =>
      let (id, sym') := sym.intern s
      let (ids, sym'') := internAll sym' rest
      (id :: ids, sym'')

/-- `env.rs::set_native`: intern the parameter names and register the
`Native` value globally. -/
def setNative (sym : Symbols) (env : Env) (def_ : NativeDef) : Symbols × Env :=
  let (posArgs, sym1) := internAll sym def_.positional
  let (restArg, sym2) := match def_.rest with
    | some s => let (id, sy') := sym1.intern s; (some id, sy')
    | none => (none, sym1)
  let (nameId, sym3) := sym2.intern def_.name
  (sym3, env.global nameId (.native (posArgs, restArg) def_.func))

/-- `env.rs::set_special`: intern the form's keyword and register the
`SpecialForm` value globally. -/
def setSpecial (sym : Symbols) (env : Env) (sf : SpecialForm) : Symbols × Env :=
  let (id, sym') := sym.intern sf.toStr
  (sym', env.global id (.specialForm sf))

/-- `env.rs::create_root`.  The source also registers `SpecialForm::Fn`,
a variant the evaluator's revision of the enum does not have (see
`SpecialForm`); the six evaluator-supported forms are registered in the
source's order. -/
def createRoot (symbols : Symbols) : Symbols × Env :=
  let (s1, e1) := setSpecial symbols Env.new .defF
  let (s2, e2) := setSpecial s1 e1 .setF
  let (s3, e3) := setSpecial s2 e2 .ifF
  let (s4, e4) := setSpecial s3 e3 .letF
  let (s5, e5) := setSpecial s4 e4 .beginF
  let (s6, e6) := setSpecial s5 e5 .quoteF
  rootNatives.foldl (fun (se : Symbols × Env) d => setNative se.1 se.2 d) (s6, e6)

/-! ## Interpreter (`interpreter.rs`)

`Interpreter` owns the interner and the environment; both are threaded
explicitly (`&mut self` in Rust).  `eval` takes a fuel parameter
standing in for the host call stack: each recursive re-entry into `eval`
consumes one unit, and exhaustion yields the `fuelOut` outcome (Rust
would overflow the stack; no claim depends on the exhausted case).  The
helper functions take the recursive evaluator as an explicit function
argument `ev`, which makes each of them non-recursive in `eval` and lets
theorems speak about a single unfolding level. -/

/-- The mutable interpreter state (`Interpreter`'s `symbols` and `env`
fields). -/
structure InterpSt where
  symbols : Symbols
  env : Env

/-- The type of the recursive evaluator threaded through the helpers. -/
abbrev EvalFn := InterpSt → LispObject → Res EvalError LispObject × InterpSt

/-- The `iter().enumerate().map(eval).collect::<Result<Vec<_>>>` pattern
(used by `bind_param_list`, `begin`, `if`'s else chain and `eval_body`):
evaluate left to right, stopping at the first failure and reporting its
index (counted from `idx`). -/
def evalListWith (ev : EvalFn) : InterpSt → List LispObject → Nat →
    Res (EvalError × Nat) (List LispObject) × InterpSt
  | st, [], _ => (.ok [], st)
  | st, o :: rest, idx =>
      match ev st o with
      | (.ok v, st') =>
          (match evalListWith ev st' rest (idx + 1) with
           | (.ok vs, st'') => (.ok (v :: vs), st'')
           | (.err e, st'') => (.err e, st'')
           | (.panic m, st'') => (.panic m, st'')
           | (.fuelOut, st'') => (.fuelOut, st''))
      | (.err e, st') => (.err (e, idx), st')
      | (.panic m, st') => (.panic m, st')
      | (.fuelOut, st') => (.fuelOut, st')

/-- `Interpreter::bind_param_list`: check arity (exact without a rest
parameter, minimum with one) *before* touching any argument, then
evaluate the arguments left to right (or pass them through unevaluated
for macro binding), then zip positional parameters with the leading
values and — when a rest parameter is declared — bind it to one `List`
of the values beyond the positional count.  The `Bool` in the error is
`err_in_expansion` (`false` exactly when an argument failed to
evaluate). -/
def bindParamList (ev : EvalFn) (st : InterpSt) (params : ParamList)
    (tail : List LispObject) (evalArgs : Bool) :
    Res (EvalError × Bool) (List (Symbol × LispObject)) × InterpSt :=
  let m := match params.2 with
    | none => ArgMatch.exact
    | some _ => ArgMatch.min
  match assert_args m tail params.1.length
      ("param list " ++ st.symbols.serialize_param_list params) with
  | .err e => (.err (e.traceP 1, true), st)
  | _ =>
    let step : Res (EvalError × Bool) (List LispObject) × InterpSt :=
      if evalArgs then
        match evalListWith ev st tail 0 with
        | (.ok vs, st') => (.ok vs, st')
        | (.err (e, idx), st') => (.err (e.traceP (idx + 1), false), st')
        | (.panic m', st') => (.panic m', st')
        | (.fuelOut, st') => (.fuelOut, st')
      else (.ok tail, st)
    match step with
    | (.ok args, st1) =>
        (match params.2 with
         | some restSym =>
             let posArgs := args.take params.1.length
             let restArgs := args.drop params.1.length
             (.ok ((params.1 ++ [restSym]).zip (posArgs ++ [.list restArgs])), st1)
         | none => (.ok (params.1.zip args), st1))
    | (.err e, st1) => (.err e, st1)
    | (.panic m', st1) => (.panic m', st1)
    | (.fuelOut, st1) => (.fuelOut, st1)

/-- `Interpreter::eval_body`: push one scope, apply the bindings (in
order), evaluate the body forms in order, return the last result (the
empty list for an empty body), and pop the scope on *every* exit path —
the `pop_scope` is outside the `Result` plumbing in the source, exactly
as here. -/
def evalBody (ev : EvalFn) (st : InterpSt)
    (binding : Option (List (Symbol × LispObject))) (forms : List LispObject) :
    Res (EvalError × Nat) LispObject × InterpSt :=
  let st1 : InterpSt := { st with env := st.env.push_scope }
  let st2 : InterpSt := match binding with
    | none => st1
    | some b =>
        { st1 with env := b.foldl (fun e (p : Symbol × LispObject) => e.set p.1 p.2) st1.env }
  let (r, st3) := evalListWith ev st2 forms 0
  let final : Res (EvalError × Nat) LispObject :=
    match r with
    | .ok vs => .ok (vs.getLast?.getD (.list []))
    | .err e => .err e
    | .panic m => .panic m
    | .fuelOut => .fuelOut
  (final, { st3 with env := st3.env.pop_scope })

/-- The binding loop of `eval_special_form`'s `Let` arm: each binding
form must be a `(symbol expr)` list; the expression is evaluated in the
current (enclosing) state — no scope has been pushed yet.  Rust indexes
`b[0]`/`b[1]`, so too-short binding forms panic. -/
def evalLetBindings (ev : EvalFn) : InterpSt → List LispObject → Nat →
    Res EvalError (List (Symbol × LispObject)) × InterpSt
  | st, [], _ => (.ok [], st)
  | st, bform :: rest, index =>
      match bform.as_list with
      | .err e => (.err ((e.traceP index).traceP 1), st)
      | .panic m => (.panic m, st)
      | .fuelOut => (.fuelOut, st)
      | .ok b =>
          match b with
          | [] => (.panic "index out of bounds", st)
          | b0 :: brest =>
              match b0.as_symbol with
              | .err e => (.err (((e.traceP 0).traceP index).traceP 1), st)
              | .panic m => (.panic m, st)
              | .fuelOut => (.fuelOut, st)
              | .ok s =>
                  match brest with
                  | [] => (.panic "index out of bounds", st)
                  | b1 :: _ =>
                      match ev st b1 with
                      | (.ok v, st') =>
                          (match evalLetBindings ev st' rest (index + 1) with
                           | (.ok binds, st'') => (.ok ((s, v) :: binds), st'')
                           | (.err e, st'') => (.err e, st'')
                           | (.panic m, st'') => (.panic m, st'')
                           | (.fuelOut, st'') => (.fuelOut, st''))
                      | (.err e, st') => (.err (((e.traceP 1).traceP index).traceP 1), st')
                      | (.panic m, st') => (.panic m, st')
                      | (.fuelOut, st') => (.fuelOut, st')

/-- `interpreter.rs::FunctionDef` (`is_macro` spelled `isMac`). -/
structure FunctionDef where
  params : ParamList
  forms : List LispObject
  isMac : Bool

/-- `split_param_list`: `&rest` must sit exactly second to last; the two
trailing elements are split off and the second becomes the rest symbol.
(`lst.len() - 2` is `usize` arithmetic in Rust; for the degenerate
one-element list `(&rest)` Rust's debug build panics on the subtraction
— the model reaches its own out-of-bounds panic instead; no claim
exercises that case.) -/
def splitParamList (lst : List Symbol) (restIndex : Option Nat) :
    Res EvalError (List Symbol × Option Symbol) :=
  match restIndex with
  | none => .ok (lst, none)
  | some i =>
      if i = lst.length - 2 then
        match lst.drop i with
        | _ :: r :: _ => .ok (lst.take i, some r)
        | _ => .panic "index out of bounds"
      else .err ((EvalError.new "&rest must be second to last in parameter list").traceP i)

/-- `Interpreter::parse_param_list`: all elements must be symbols; the
first `&rest` occurrence (by id) is located and split off. -/
def parseParamList (syms : Symbols) (lst : List LispObject) : Res EvalError ParamList :=
  match as_symbols lst with
  | .err (e, index) => .err (e.traceP index)
  | .panic m => .panic m
  | .fuelOut => .fuelOut
  | .ok params => splitParamList params (params.findIdx? (· = syms.sym_rest))

/-- `Interpreter::parse_function_def`: the head must be the symbol `fn`
(a lambda) or `macro`; element 1 is the raw parameter list; the rest is
the body. -/
def parseFunctionDef (syms : Symbols) (lst : List LispObject) : Res EvalError FunctionDef :=
  match assert_args .min lst 2 "fn definition" with
  | .err e => .err e
  | _ =>
    match lst with
    | l0 :: l1 :: lrest =>
        let mkHeadErr : Res EvalError Bool :=
          .err ((EvalError.new ("Expected `fn` or `macro` symbol, got `" ++
                  syms.serialize_object l0 ++ "`")).traceP 0)
        let isMacR : Res EvalError Bool :=
          match l0 with
          | .symbol x =>
              if x = syms.sym_fn then .ok false
              else if x = syms.sym_mac then .ok true
              else mkHeadErr
          | _ => mkHeadErr
        (match isMacR with
         | .err e => .err e
         | .panic m => .panic m
         | .fuelOut => .fuelOut
         | .ok isMac =>
             match l1.as_list with
             | .err e => .err (e.traceP 1)
             | .panic m => .panic m
             | .fuelOut => .fuelOut
             | .ok paramList =>
                 match parseParamList syms paramList with
                 | .err e => .err (e.traceP 1)
                 | .panic m => .panic m
                 | .fuelOut => .fuelOut
                 | .ok params => .ok ⟨params, lrest, isMac⟩)
    | _ => .panic "unreachable: assert_args guarantees two elements"

/-- Modelled from the spec: `EvalError::def_frame` is called by
`interpreter.rs` but defined in a `lisp_object.rs` revision missing from
the tree.  Per the spec's frame rule, a call-boundary crossing pushes
the `(offending form at that layer, accumulated trace)` pair
"optionally tagged with a display label"; at both call sites the label
data supplied is the head symbol (if the head was a bare symbol), whose
resolved name becomes the label. -/
def EvalError.defFrame (e : EvalError) (syms : Symbols) (expr : LispObject)
    (sym : Option Symbol) : EvalError :=
  e.frameP expr (sym.bind fun s => syms.as_string s)

/-- `Interpreter::eval_special_form`.  `tail` holds the unevaluated
operands; each arm controls its own evaluation order.  Arms marked
"unreachable" correspond to Rust indexing that the preceding arity
assertion has already made safe. -/
def evalSpecialForm (ev : EvalFn) (st : InterpSt) (sf : SpecialForm)
    (tail : List LispObject) : Res EvalError LispObject × InterpSt :=
  match sf with
  | .quoteF =>
      (match assert_args .exact tail 1 "special form quote" with
       | .err e => (.err e, st)
       | _ =>
         match tail with
         | t0 :: _ => (.ok t0, st)
         | [] => (.panic "index out of bounds", st))
  | .beginF =>
      (match assert_args .min tail 1 "special form begin" with
       | .err e => (.err e, st)
       | _ =>
         match evalListWith ev st tail 0 with
         | (.ok vs, st') =>
             (match vs.getLast? with
              | some v => (.ok v, st')
              | none => (.panic "index out of bounds", st'))
         | (.err (e, idx), st') => (.err (e.traceP (idx + 1)), st')
         | (.panic m, st') => (.panic m, st')
         | (.fuelOut, st') => (.fuelOut, st'))
  | .defF =>
      (match assert_args .exact tail 2 "special form def" with
       | .err e => (.err e, st)
       | _ =>
         match tail with
         | t0 :: t1 :: _ =>
             (match t0 with
              | .symbol s =>
                  (match ev st t1 with
                   | (.ok value, st') => (.ok value, { st' with env := st'.env.global s value })
                   | (.err e, st') => (.err (e.traceP 2), st')
                   | (.panic m, st') => (.panic m, st')
                   | (.fuelOut, st') => (.fuelOut, st'))
              | _ => (.err ((EvalError.new
                       "special form def must have a symbol in 1st place").traceP 1), st))
         | _ => (.panic "index out of bounds", st))
  | .setF =>
      (match assert_args .exact tail 2 "special form set" with
       | .err e => (.err e, st)
       | _ =>
         match tail with
         | t0 :: t1 :: _ =>
             (match t0 with
              | .symbol s =>
                  (match ev st t1 with
                   | (.ok value, st') => (.ok value, { st' with env := st'.env.set s value })
                   | (.err e, st') => (.err (e.traceP 2), st')
                   | (.panic m, st') => (.panic m, st')
                   | (.fuelOut, st') => (.fuelOut, st'))
              | _ => (.err ((EvalError.new
                       "special form set must have a symbol in 1st place").traceP 1), st))
         | _ => (.panic "index out of bounds", st))
  | .ifF =>
      (match assert_args .min tail 2 "special form if" with
       | .err e => (.err e, st)
       | _ =>
         match tail with
         | t0 :: t1 :: trest =>
             (match ev st t0 with
              | (.ok pv, st1) =>
                  (match pv.as_bool with
                   | .ok b =>
                       if b then
                         match ev st1 t1 with
                         | (.ok v, st2) => (.ok v, st2)
                         | (.err e, st2) => (.err (e.traceP 2), st2)
                         | (.panic m, st2) => (.panic m, st2)
                         | (.fuelOut, st2) => (.fuelOut, st2)
                       else if trest.isEmpty then (.ok (.bool false), st1)
                       else
                         match evalListWith ev st1 trest 0 with
                         | (.ok vs, st2) =>
                             (match vs.getLast? with
                              | some v => (.ok v, st2)
                              | none => (.panic "index out of bounds", st2))
                         | (.err (e, idx), st2) => (.err (e.traceP (3 + idx)), st2)
                         | (.panic m, st2) => (.panic m, st2)
                         | (.fuelOut, st2) => (.fuelOut, st2)
                   | .err e => (.err (e.traceP 1), st1)
                   | .panic m => (.panic m, st1)
                   | .fuelOut => (.fuelOut, st1))
              | (.err e, st1) => (.err (e.traceP 1), st1)
              | (.panic m, st1) => (.panic m, st1)
              | (.fuelOut, st1) => (.fuelOut, st1))
         | _ => (.panic "index out of bounds", st))
  | .letF =>
      (match assert_args .min tail 2 "special form let" with
       | .err e => (.err e, st)
       | _ =>
         match tail with
         | t0 :: body =>
             (match t0.as_list with
              | .err e => (.err (e.traceP 1), st)
              | .panic m => (.panic m, st)
              | .fuelOut => (.fuelOut, st)
              | .ok bindingForms =>
                  match evalLetBindings ev st bindingForms 0 with
                  | (.ok binding, st1) =>
                      (match evalBody ev st1 (some binding) body with
                       | (.ok v, st2) => (.ok v, st2)
                       | (.err (e, index), st2) => (.err (e.traceP (index + 2)), st2)
                       | (.panic m, st2) => (.panic m, st2)
                       | (.fuelOut, st2) => (.fuelOut, st2))
                  | (.err e, st1) => (.err e, st1)
                  | (.panic m, st1) => (.panic m, st1)
                  | (.fuelOut, st1) => (.fuelOut, st1))
         | [] => (.panic "index out of bounds", st))

/-- `Interpreter::eval_form`: a list value in head position is a
function definition `(fn params body…)` or `(macro params body…)`.
Parse it, bind the call operands (evaluated for a lambda, unevaluated
for a macro), evaluate the body in a fresh scope, and — for a macro —
evaluate the body's resulting expression exactly once more in the
call-site state (the scope pushed for the body has already been popped
by `eval_body`).  The error `Bool` is `err_in_expansion`. -/
def evalForm (ev : EvalFn) (st : InterpSt) (lst : List LispObject)
    (tail : List LispObject) : Res (EvalError × Bool) LispObject × InterpSt :=
  match parseFunctionDef st.symbols lst with
  | .err e => (.err (e, true), st)
  | .panic m => (.panic m, st)
  | .fuelOut => (.fuelOut, st)
  | .ok fd =>
      match bindParamList ev st fd.params tail (!fd.isMac) with
      | (.ok binding, st1) =>
          (match evalBody ev st1 (some binding) fd.forms with
           | (.ok result, st2) =>
               if fd.isMac then
                 match ev st2 result with
                 | (.ok v, st3) => (.ok v, st3)
                 | (.err e, st3) =>
                     (.err ((e.frameP result (some "~>")).traceP 0, true), st3)
                 | (.panic m, st3) => (.panic m, st3)
                 | (.fuelOut, st3) => (.fuelOut, st3)
               else (.ok result, st2)
           | (.err (e, index), st2) => (.err (e.traceP (index + 2), true), st2)
           | (.panic m, st2) => (.panic m, st2)
           | (.fuelOut, st2) => (.fuelOut, st2))
      | (.err eb, st1) => (.err eb, st1)
      | (.panic m, st1) => (.panic m, st1)
      | (.fuelOut, st1) => (.fuelOut, st1)

/-- `Interpreter::eval`.  Atoms self-evaluate (a bare `SpecialForm`
value is the internal error of `exc.rs`); symbols resolve in the
environment; a non-empty list evaluates its head and dispatches on the
result.  The `.lambda`/`.mac` arms: the `interpreter.rs` revision's
`LispObject` has no such variants (its `eval` match is exhaustive
without them) — they exist here for `env.rs`'s serializer, and their
evaluation maps to `exc::unexpected_lambda`, the arm an earlier
evaluator revision used; no claim evaluates them. -/
def eval : Nat → InterpSt → LispObject → Res EvalError LispObject × InterpSt
  | 0, st, _ => (.fuelOut, st)
  | f + 1, st, obj =>
    match obj with
    | .list l =>
        (match l with
         | [] => (.err apply_empty, st)
         | l0 :: tail =>
             match eval f st l0 with
             | (.ok head, st1) =>
                 (match head with
                  | .specialForm sf => evalSpecialForm (eval f) st1 sf tail
                  | .native params id =>
                      (match bindParamList (eval f) st1 params tail true with
                       | (.ok binding, st2) => (applyNative id (binding.map (·.2)), st2)
                       | (.err (e, _), st2) => (.err e, st2)
                       | (.panic m, st2) => (.panic m, st2)
                       | (.fuelOut, st2) => (.fuelOut, st2))
                  | .list lst =>
                      (match evalForm (eval f) st1 lst tail with
                       | (.ok v, st2) => (.ok v, st2)
                       | (.err (e, errInExpansion), st2) =>
                           if errInExpansion then
                             (.err ((e.defFrame st2.symbols (.list lst)
                                       l0.asSymbolOpt).traceP 0), st2)
                           else (.err e, st2)
                       | (.panic m, st2) => (.panic m, st2)
                       | (.fuelOut, st2) => (.fuelOut, st2))
                  | _ => (.err ((apply_unimpl.defFrame st1.symbols head
                            l0.asSymbolOpt).traceP 0), st1))
             | (.err e, st1) => (.err (e.traceP 0), st1)
             | (.panic m, st1) => (.panic m, st1)
             | (.fuelOut, st1) => (.fuelOut, st1))
    | .symbol s =>
        (match st.env.resolve s with
         | some o => (.ok o, st)
         | none => (.err (unbound_symbol (st.symbols.as_string s)), st))
    | .string s => (.ok (.string s), st)
    | .number n => (.ok (.number n), st)
    | .bool b => (.ok (.bool b), st)
    | .native p nid => (.ok (.native p nid), st)
    | .specialForm _ => (.err unexpected_special_form, st)
    | .lambda _ _ => (.err unexpected_lambda, st)
    | .mac _ _ => (.err unexpected_lambda, st)

/-- `Interpreter::new`: fresh interner, root environment. -/
def InterpSt.new : InterpSt :=
  let (s, e) := createRoot Symbols.new
  ⟨s, e⟩

/-- Ample fuel for every concrete evaluation in this file (the claims'
programs recurse a handful of levels deep). -/
def topFuel : Nat := 1000

/-- The evaluation step of `Interpreter::handle_line`: evaluate one
completed top-level form; on failure, record the top-level frame with
the `":in:"` label. -/
def evalTop (st : InterpSt) (obj : LispObject) : Res EvalError LispObject × InterpSt :=
  match eval topFuel st obj with
  | (.err e, st') => (.err (e.frameP obj (some ":in:")), st')
  | other => other

/-! ## Trace/frame reconstruction (`err.rs`) -/

/-- The element loop of `handle_failed_form`: rebuild the form's
serialization `"(" ++ elements ++ ")"` element by element, splicing in
the recursively localized rendering `childRes` at index `off` and
offsetting its span by everything rendered before it.  (The recursive
call on the traced child is hoisted out of the loop into `childRes`; it
is evaluated at most once, at `idx = off`, exactly as in the source.)
Offsets are byte offsets in Rust and character offsets here; the inputs
are ASCII. -/
def hffGo (syms : Symbols) (off : Nat) (childRes : String × Nat × Nat) :
    List LispObject → Nat → String → Nat → Nat → String × Nat × Nat
  | [], _, acc, s, e => (acc, s, e)
  | o :: rest, idx, acc, s, e =>
      let next : String × Nat × Nat :=
        if idx = off then
          (acc ++ childRes.1, childRes.2.1 + acc.length, childRes.2.2 + acc.length)
        else (acc ++ syms.serialize_object o, s, e)
      let acc2 := if rest.isEmpty then next.1 ++ ")" else next.1 ++ " "
      hffGo syms off childRes rest (idx + 1) acc2 next.2.1 next.2.2

/-- `err.rs::handle_failed_form` with the trace already reversed (most
recently pushed index first), which is the order the source consumes it
in (`offset = stack[stack.len() - 1]`, recursing on `stack[0..len-1]`).
An empty trace renders the whole form with the full span; a non-list
form under a non-empty trace falls back to the whole-form case (the
source's recursion with the empty slice `&stack[0..0]`, inlined). -/
def hffRev (syms : Symbols) : LispObject → List Nat → String × Nat × Nat
  | form, [] =>
      let s := syms.serialize_object form
      (s, 0, s.length)
  | form, off :: rest =>
      match form with
      | .list l =>
          let childRes := match l.get? off with
            | some c => hffRev syms c rest
            | none => ("", 0, 0)
          hffGo syms off childRes l 0 "(" 0 0
      | _ =>
          let s := syms.serialize_object form
          (s, 0, s.length)

/-- `err.rs::handle_failed_form`: localize a trace within one form,
returning the rendered text and the highlight span. -/
def handleFailedForm (syms : Symbols) (form : LispObject) (stack : List Nat) :
    String × Nat × Nat :=
  hffRev syms form stack.reverse

/-- The reporting loop of `err.rs::handle_eval_error`, minus the
terminal printing: one localized excerpt (rendered text, span start,
span end, place label) per recorded frame. -/
def frameExcerpts (syms : Symbols) (e : EvalError) :
    List (String × Nat × Nat × Option String) :=
  e.frames.map fun fr =>
    let (s, a, b) := handleFailedForm syms fr.1 fr.2.1
    (s, a, b, fr.2.2)

/-! ## Concrete claim inputs -/

/-- The id the root interpreter's interner assigns to `+`. -/
def plusSym : Symbol := (InterpSt.new.symbols.intern "+").1

/-- The claim C1 input text. -/
def c1Input : String := "(+ 1 (+ 2 \"x\"))"

/-- The form the reader produces for `c1Input` (checked against the
reader inside the C1 theorem). -/
def c1Form : LispObject :=
  .list [.symbol plusSym, .number 1, .list [.symbol plusSym, .number 2, .string "x"]]

/-- `true` when the value contains no `Native` and no `SpecialForm`
node (the claim C2 precondition), checked through every list and
function body. -/
def noNativeSF : LispObject → Bool
  | .native _ _ => false
  | .specialForm _ => false
  | .list l => noNativeSFList l
  | .lambda _ body => noNativeSFList body
  | .mac _ body => noNativeSFList body
  | _ => true
where
  noNativeSFList : List LispObject → Bool
    | [] => true
    | o :: rest => noNativeSF o && noNativeSFList rest

/-- The claim C2 counterexample value: a parameterless `Lambda` with an
empty body. -/
def c2Bad : LispObject := .lambda ([], none) []

/-! ## The round-trip fragment (claim C2)

The amended round-trip claim quantifies over values whose serialization
re-lexes unambiguously.  `plainName` captures symbol names that the
catch-all pattern tokenizes in one piece: non-empty, all symbol
characters, and starting in a way no higher-priority pattern (`#t`/`#f`,
number, string-start) claims. -/

/-- After a leading `-`/`.`, the next character must not extend a number
match. -/
def plainStartOk : List Char → Bool
  | [] => true
  | d :: _ => !d.isDigit && d ≠ '.'

/-- A symbol name the lexer's catch-all pattern recognizes whole. -/
def plainNameL : List Char → Bool
  | [] => false
  | c :: t =>
      (c :: t).all isSymChar && c ≠ '#' && c ≠ '"' && !c.isDigit &&
      (!(c = '-' || c = '.') || plainStartOk t)

/-- String form of `plainNameL`. -/
def plainName (s : String) : Bool := plainNameL s.data

/-- The character suffixes that can legally follow one serialized value
inside a larger serialization: nothing (end of input), a separating
space, or a closing parenthesis.  Delimits every maximal-munch token the
round-trip lemma steps over. -/
def DelimHead (r : List Char) : Prop :=
  r = [] ∨ (∃ t, r = ' ' :: t) ∨ (∃ t, r = ')' :: t)

/-- The C2 fragment, relative to an interner: `Bool`s; integral
`Number`s; `String`s free of `"` and `\`; `Symbol`s registered in the
interner under a plain name (both directions, so re-interning the
serialized name returns the same id); `List`s of such values.
`Native`/`SpecialForm` (excluded by the original claim) and
`Lambda`/`Macro` (excluded by the counterexample `c2Bad`) are out. -/
def goodW (syms : Symbols) : LispObject → Bool
  | .bool _ => true
  | .number q => q.den == 1
  | .string s => s.data.all isTextChar
  | .symbol i =>
      (match syms.as_string i with
       | some n => plainName n && (syms.registry.lookup n == some i)
       | none => false)
  | .list l => goodWList l
  | _ => false
where
  goodWList : List LispObject → Bool
    | [] => true
    | o :: rest => goodW syms o && goodWList rest

/-- The token stream the lexer produces for a serialized C2-fragment
value (proved as `lexAll_serialize` below). -/
def toksOf (syms : Symbols) : LispObject → List Tokens
  | .bool true => [.object .trueT]
  | .bool false => [.object .falseT]
  | .number q => [.object (.number q)]
  | .string s =>
      if s.data.isEmpty then [.object .startString, .string .endString]
      else [.object .startString, .string (.text s), .string .endString]
  | .symbol i => [.object (.symbol ((syms.as_string i).getD "~~uninterned~~"))]
  | .list l => .object .lbrace :: (toksOfList l ++ [.object .rbrace])
  | _ => []
where
  toksOfList : List LispObject → List Tokens
    | [] => []
    | o :: rest => toksOf syms o ++ toksOfList rest

/-- The number of `parse_sexp` loop iterations (= fuel) consumed by the
token stream of one C2-fragment value: one per token, except that a
string's three tokens are consumed in a single iteration. -/
def nitersOf : LispObject → Nat
  | .list l => 2 + nitersOfList l
  | _ => 1
where
  nitersOfList : List LispObject → Nat
    | [] => 0
    | o :: rest => nitersOf o + nitersOfList rest

/-- The continuation every token arm of `parseSexp` applies to the
result of `handleObj`: a completed top-level form stops the loop, an
object absorbed into an open list frame continues it.  Factoring it out
lets one lemma cover all arms uniformly. -/
def stepRes (syms : Symbols) (fuel : Nat) (rest : List Tokens) :
    Option LispObject × List ReaderFrame →
    Except ReadError (Option LispObject × Symbols × Reader × List Tokens)
  | (some a, s'') => .ok (some a, syms, ⟨s''⟩, rest)
  | (none, s'') => parseSexp fuel syms ⟨s''⟩ rest

/-! ## Result-rewrapping helpers for the evaluator theorems -/

/-- How `eval_form` wraps the outcome of the post-expansion
re-evaluation of a macro's `result` expression. -/
def macroRewrap (result : LispObject) :
    Res EvalError LispObject × InterpSt → Res (EvalError × Bool) LispObject × InterpSt
  | (.ok v, st) => (.ok v, st)
  | (.err e, st) => (.err ((e.frameP result (some "~>")).traceP 0, true), st)
  | (.panic m, st) => (.panic m, st)
  | (.fuelOut, st) => (.fuelOut, st)

/-- How the `Let` arm wraps the outcome of `eval_body`. -/
def letRewrap :
    Res (EvalError × Nat) LispObject × InterpSt → Res EvalError LispObject × InterpSt
  | (.ok v, st) => (.ok v, st)
  | (.err (e, index), st) => (.err (e.traceP (index + 2)), st)
  | (.panic m, st) => (.panic m, st)
  | (.fuelOut, st) => (.fuelOut, st)

/-! ## Interner well-formedness (claim C9) -/

/-- The interner invariant: every registered id is at most `next_id`,
and the reverse map sends it back to its name.  `Symbols::new`
establishes it and `intern` preserves it (`symbolsWf_intern`). -/
def SymbolsWf (s : Symbols) : Prop :=
  ∀ p ∈ s.registry, p.2 ≤ s.next_id ∧ s.reverse.lookup p.2 = some p.1

instance (s : Symbols) : Decidable (SymbolsWf s) :=
  inferInstanceAs (Decidable (∀ _ ∈ _, _))

/-! ## Concrete inputs for the remaining claims -/

/-- The id the root interner assigns to the freshly interned `x` of the
claim C5 program. -/
def xSym : Symbol := (InterpSt.new.symbols.intern "x").1

/-- The interner after reading the claim C5 program (it adds `x`). -/
def c5Symbols : Symbols := (InterpSt.new.symbols.intern "x").2

/-- The id the root interner assigns to `let`. -/
def letSym : Symbol := (InterpSt.new.symbols.intern "let").1

/-- The claim C5 input text. -/
def c5Input : String := "(let ((x 1)) (let ((x 2)) x))"

/-- The form the reader produces for `c5Input`. -/
def c5Form : LispObject :=
  .list [.symbol letSym, .list [.list [.symbol xSym, .number 1]],
    .list [.symbol letSym, .list [.list [.symbol xSym, .number 2]], .symbol xSym]]

/-- An arbitrary fresh symbol id standing for the macro parameter `a`
in the claim C3 witness. -/
def aSym : Symbol := 99

/-- The claim C3 witness macro definition list, `(macro (a) a)`: binds
its single operand unevaluated and expands to it. -/
def c3MacroList : List LispObject :=
  [.symbol InterpSt.new.symbols.sym_mac, .list [.symbol aSym], .symbol aSym]

/-- The claim C3 witness operand, `(quote 7)` — unevaluated at binding
time, evaluated (to `7`) by the single post-expansion re-entry. -/
def c3Operand : LispObject :=
  .list [.symbol InterpSt.new.symbols.sym_quote, .number 7]

/-! # Theorems -/

/-! ## Association-list and interner lemmas -/

/-- A successful `lookup` exhibits membership. -/
theorem lookup_mem {α β : Type} [BEq α] [LawfulBEq α] :
    ∀ {l : List (α × β)} {k : α} {v : β}, l.lookup k = some v → (k, v) ∈ l := by
  intro l
  induction l with
  | nil => intro k v h; simp [List.lookup] at h
  | cons p rest ih =>
      intro k v h
      rw [show p = (p.1, p.2) from rfl, List.lookup_cons] at h
      by_cases hk : k == p.1
      · simp only [hk, if_true, Option.some.injEq] at h
        have hk' : k = p.1 := eq_of_beq hk
        rw [hk', ← h]
        exact List.mem_cons_self _ _
      · simp only [hk, if_false, Bool.false_eq_true] at h
        exact List.mem_cons_of_mem _ (ih h)

/-- `intern` preserves the interner invariant. -/
theorem symbolsWf_intern (s : Symbols) (hwf : SymbolsWf s) (n : String) :
    SymbolsWf (s.intern n).2 := by
  unfold Symbols.intern
  cases h : s.registry.lookup n with
  | some i => simpa using hwf
  | none =>
      intro p hp
      simp only [List.mem_cons] at hp
      rcases hp with rfl | hp
      · constructor
        · exact Nat.le_refl _
        · simp [List.lookup]
      · rcases hwf p hp with ⟨hle, hrev⟩
        refine ⟨Nat.le_succ_of_le hle, ?_⟩
        have hne : p.2 ≠ s.next_id + 1 := Nat.ne_of_lt (Nat.lt_succ_of_le hle)
        have hb : (p.2 == s.next_id + 1) = false := beq_eq_false_iff_ne.mpr hne
        simp [List.lookup, hb, hrev]

/-- After `intern n`, looking `n` up in the registry returns the id
`intern` produced. -/
theorem intern_lookup (s : Symbols) (n : String) :
    (s.intern n).2.registry.lookup n = some (s.intern n).1 := by
  unfold Symbols.intern
  cases h : s.registry.lookup n with
  | some i => simpa using h
  | none => simp [List.lookup]

/-- Interning an already-registered name returns its id and leaves the
interner untouched. -/
theorem intern_of_lookup (s : Symbols) (n : String) (i : Symbol)
    (h : s.registry.lookup n = some i) : s.intern n = (i, s) := by
  unfold Symbols.intern
  rw [h]

/-- Interning an unregistered name allocates `next_id + 1`. -/
theorem intern_fresh_id (s : Symbols) (n : String)
    (h : s.registry.lookup n = none) : (s.intern n).1 = s.next_id + 1 := by
  unfold Symbols.intern
  rw [h]

/-- Claim C9: over any well-formed interner, `intern` is idempotent (a
second `intern` of the same name returns the same id and does not change
the interner), `as_string` is a left inverse of `intern`, distinct names
receive distinct ids, and a freshly allocated id is strictly greater
than every previously registered id (ids are strictly increasing). -/
theorem c9_interner_bijection (s : Symbols) (hwf : SymbolsWf s) (n₁ n₂ : String) :
    (s.intern n₁).2.intern n₁ = s.intern n₁ ∧
    (s.intern n₁).2.as_string (s.intern n₁).1 = some n₁ ∧
    (n₁ ≠ n₂ → ((s.intern n₁).2.intern n₂).1 ≠ (s.intern n₁).1) ∧
    (s.registry.lookup n₁ = none → ∀ p ∈ s.registry, p.2 < (s.intern n₁).1) := by
  have hwf' := symbolsWf_intern s hwf n₁
  have hlk := intern_lookup s n₁
  refine ⟨?_, ?_, ?_, ?_⟩
  · exact intern_of_lookup _ _ _ hlk
  · exact (hwf' _ (lookup_mem hlk)).2
  · intro hne
    cases h2 : (s.intern n₁).2.registry.lookup n₂ with
    | some j =>
        rw [intern_of_lookup _ _ _ h2]
        intro hcontra
        have hj : j = (s.intern n₁).1 := hcontra
        have e2 : (s.intern n₁).2.reverse.lookup j = some n₂ :=
          (hwf' _ (lookup_mem h2)).2
        have e1 : (s.intern n₁).2.reverse.lookup (s.intern n₁).1 = some n₁ :=
          (hwf' _ (lookup_mem hlk)).2
        rw [hj, e1] at e2
        exact hne (Option.some_injective _ e2)
    | none =>
        rw [intern_fresh_id _ _ h2]
        have hle := (hwf' _ (lookup_mem hlk)).1
        exact Nat.ne_of_gt (Nat.lt_succ_of_le hle)
  · intro h p hp
    rw [intern_fresh_id s n₁ h]
    exact Nat.lt_succ_of_le (hwf p hp).1

/-! ## Parameter binding (claim C4) -/

/-- A successful argument-evaluation pass returns one value per
argument. -/
theorem evalListWith_ok_length (ev : EvalFn) :
    ∀ (objs : List LispObject) (st : InterpSt) (idx : Nat) (vs : List LispObject)
      (st' : InterpSt), evalListWith ev st objs idx = (.ok vs, st') →
      vs.length = objs.length := by
  intro objs
  induction objs with
  | nil => intro st idx vs st' h; simp only [evalListWith] at h; cases h; rfl
  | cons o rest ih =>
      intro st idx vs st' h
      simp only [evalListWith] at h
      cases hev : ev st o with
      | mk r st1 =>
          rw [hev] at h
          cases r with
          | ok v =>
              simp only at h
              cases hrec : evalListWith ev st1 rest (idx + 1) with
              | mk r2 st2 =>
                  rw [hrec] at h
                  cases r2 with
                  | ok vs2 =>
                      simp only at h
                      cases h
                      simp [ih _ _ _ _ hrec]
                  | err e => simp at h
                  | panic m => simp at h
                  | fuelOut => simp at h
          | err e => simp at h
          | panic m => simp at h
          | fuelOut => simp at h

/-- Claim C4: without a rest parameter, applying to `m ≠ n` argument
expressions fails with the arity error *before* any argument is
evaluated — the state (hence the environment) is returned unchanged;
with a rest parameter, any `m ≥ n` application passes the arity check
and, once the arguments evaluate to `vs`, binds the positional
parameters to the first `n` values and the rest symbol to one `List`
holding exactly the `m − n` trailing values in order. -/
theorem c4_bind_param_list_arity :
    (∀ (ev : EvalFn) (st : InterpSt) (pos : List Symbol) (tail : List LispObject)
       (evalArgs : Bool), tail.length ≠ pos.length →
       bindParamList ev st (pos, none) tail evalArgs
         = (.err ((EvalError.new (exactArgsMsg
               ("param list " ++ st.symbols.serialize_param_list (pos, none))
               pos.length tail.length)).traceP 1, true), st)) ∧
    (∀ (ev : EvalFn) (st : InterpSt) (pos : List Symbol) (restSym : Symbol)
       (tail vs : List LispObject) (st' : InterpSt),
       pos.length ≤ tail.length →
       evalListWith ev st tail 0 = (.ok vs, st') →
       bindParamList ev st (pos, some restSym) tail true
         = (.ok (pos.zip (vs.take pos.length) ++
                  [(restSym, .list (vs.drop pos.length))]), st') ∧
       (vs.drop pos.length).length = tail.length - pos.length) := by
  constructor
  · intro ev st pos tail evalArgs hne
    simp only [bindParamList, assert_args]
    rw [if_pos hne]
  · intro ev st pos restSym tail vs st' hle hev
    have hlen := evalListWith_ok_length ev tail st 0 vs st' hev
    constructor
    · simp only [bindParamList, assert_args]
      rw [if_neg (by omega)]
      simp only [hev]
      have hz : (pos ++ [restSym]).zip (vs.take pos.length ++ [.list (vs.drop pos.length)])
          = pos.zip (vs.take pos.length) ++
              [restSym].zip [LispObject.list (vs.drop pos.length)] := by
        apply List.zip_append
        rw [List.length_take]
        omega
      simp [hz]
    · rw [List.length_drop, hlen]

/-- Witness for C4: a one-parameter list applied to zero arguments
fails with the arity error and an unchanged state, and a pure-rest
parameter list applied to two arguments binds the rest symbol to the
two-element list. -/
theorem c4_bind_param_list_arity_witness :
    (bindParamList (eval 5) InterpSt.new ([0], none) [] true
       = (.err ((EvalError.new (exactArgsMsg
             ("param list " ++ InterpSt.new.symbols.serialize_param_list ([0], none))
             1 0)).traceP 1, true), InterpSt.new)) ∧
    (bindParamList (eval 5) InterpSt.new ([], some 42) [.number 1, .number 2] true
       = (.ok [(42, .list [.number 1, .number 2])], InterpSt.new)) ∧
    ([LispObject.number 1, .number 2].drop 0).length = 2 - 0 :=
  ⟨c4_bind_param_list_arity.1 (eval 5) InterpSt.new [0] [] true (by decide),
   (c4_bind_param_list_arity.2 (eval 5) InterpSt.new [] 42 [.number 1, .number 2]
      [.number 1, .number 2] InterpSt.new (by decide) rfl).1,
   (c4_bind_param_list_arity.2 (eval 5) InterpSt.new [] 42 [.number 1, .number 2]
      [.number 1, .number 2] InterpSt.new (by decide) rfl).2⟩

/-! ## Macro expansion (claim C3) -/

/-- Claim C3: when the head of a form parses as a macro definition, the
evaluator binds the operand expressions to the parameters *without*
evaluating them (`eval_args = false`), evaluates the macro body once to
obtain a result expression, and then evaluates that result expression
exactly once more in the call-site state (the body scope has already
been popped by `eval_body`); the value of this single re-evaluation —
wrapped by `macroRewrap`, in which the re-evaluator appears exactly once
— is the value of the macro call.  There is no further expansion loop. -/
theorem c3_macro_single_reentry (ev : EvalFn) (st st1 st2 : InterpSt)
    (lst tail : List LispObject) (params : ParamList) (forms : List LispObject)
    (binding : List (Symbol × LispObject)) (result : LispObject)
    (hparse : parseFunctionDef st.symbols lst = .ok ⟨params, forms, true⟩)
    (hbind : bindParamList ev st params tail false = (.ok binding, st1))
    (hbody : evalBody ev st1 (some binding) forms = (.ok result, st2)) :
    evalForm ev st lst tail = macroRewrap result (ev st2 result) := by
  unfold evalForm
  rw [hparse]
  simp only [Bool.not_true, hbind, hbody, if_true]
  cases hres : ev st2 result with
  | mk r st3 => cases r <;> simp [macroRewrap]

/-- Witness for C3: the macro `(macro (a) a)` invoked on the operand
`(quote 7)` binds `a` to the unevaluated operand, expands to it, and the
single re-evaluation yields `7`. -/
theorem c3_macro_single_reentry_witness :
    parseFunctionDef InterpSt.new.symbols c3MacroList
      = .ok ⟨([aSym], none), [.symbol aSym], true⟩ ∧
    bindParamList (eval 10) InterpSt.new ([aSym], none) [c3Operand] false
      = (.ok [(aSym, c3Operand)], InterpSt.new) ∧
    evalBody (eval 10) InterpSt.new (some [(aSym, c3Operand)]) [.symbol aSym]
      = (.ok c3Operand, InterpSt.new) ∧
    evalForm (eval 10) InterpSt.new c3MacroList [c3Operand]
      = macroRewrap c3Operand (eval 10 InterpSt.new c3Operand) ∧
    macroRewrap c3Operand (eval 10 InterpSt.new c3Operand)
      = (.ok (.number 7), InterpSt.new) :=
  ⟨rfl, rfl, rfl,
   c3_macro_single_reentry (eval 10) InterpSt.new InterpSt.new InterpSt.new
     c3MacroList [c3Operand] ([aSym], none) [.symbol aSym] [(aSym, c3Operand)]
     c3Operand rfl rfl rfl,
   rfl⟩

/-! ## `let` scoping (claim C5) -/

/-- Claim C5: for a `let` form, the binding expressions are evaluated —
left to right, state threaded — by `evalLetBindings` in the *enclosing*
state `st`, before any scope is pushed; then a single `eval_body` call
pushes one new scope containing all bindings simultaneously, evaluates
the body forms in order inside it, and pops the scope (so no binding
expression can see a sibling binding).  Concretely,
`(let ((x 1)) (let ((x 2)) x))` reads to `c5Form` and evaluates to the
number `2` with the state (environment included) restored, and after
both `let`s exit `x` is unbound in the root environment, whose scope
stack is the single global scope. -/
theorem c5_let_scoping :
    (∀ (ev : EvalFn) (st st1 : InterpSt) (bindingForms body : List LispObject)
       (binds : List (Symbol × LispObject)),
       body ≠ [] →
       evalLetBindings ev st bindingForms 0 = (.ok binds, st1) →
       evalSpecialForm ev st .letF (.list bindingForms :: body)
         = letRewrap (evalBody ev st1 (some binds) body)) ∧
    Reader.new.feedChunk InterpSt.new.symbols c5Input
      = .ok (c5Symbols, Reader.new, [c5Form]) ∧
    eval topFuel ⟨c5Symbols, InterpSt.new.env⟩ c5Form
      = (.ok (.number 2), ⟨c5Symbols, InterpSt.new.env⟩) ∧
    Env.resolve InterpSt.new.env xSym = none ∧
    InterpSt.new.env.vars.length = 1 := by
  refine ⟨?_, rfl, rfl, rfl, rfl⟩
  intro ev st st1 bindingForms body binds hbody hbinds
  unfold evalSpecialForm
  have hlen : ¬((LispObject.list bindingForms :: body).length < 2) := by
    cases body with
    | nil => exact absurd rfl hbody
    | cons b bs => simp
  simp only [assert_args, if_neg hlen, LispObject.as_list, hbinds]
  cases hb : evalBody ev st1 (some binds) body with
  | mk r st2 =>
      cases r with
      | ok v => simp [letRewrap]
      | err p => cases p with | mk e index => simp [letRewrap]
      | panic m => simp [letRewrap]
      | fuelOut => simp [letRewrap]

/-- Witness for C5: the inner `let` of the concrete program — binding
list `((x 2))`, body `x` — instantiates the general `let` equation. -/
theorem c5_let_scoping_witness :
    evalLetBindings (eval 20) ⟨c5Symbols, InterpSt.new.env⟩
        [.list [.symbol xSym, .number 2]] 0
      = (.ok [(xSym, .number 2)], ⟨c5Symbols, InterpSt.new.env⟩) ∧
    evalSpecialForm (eval 20) ⟨c5Symbols, InterpSt.new.env⟩ .letF
        (.list [.list [.symbol xSym, .number 2]] :: [.symbol xSym])
      = letRewrap (evalBody (eval 20) ⟨c5Symbols, InterpSt.new.env⟩
          (some [(xSym, .number 2)]) [.symbol xSym]) :=
  ⟨rfl,
   c5_let_scoping.1 (eval 20) ⟨c5Symbols, InterpSt.new.env⟩
     ⟨c5Symbols, InterpSt.new.env⟩ [.list [.symbol xSym, .number 2]]
     [.symbol xSym] [(xSym, .number 2)] (by simp) rfl⟩

/-! ## Scope-stack balance (claim C6)

Every helper preserves the scope-stack depth provided the recursive
evaluator it is handed does; `eval` then preserves it by induction on
the fuel.  `pop_scope` is `List.tail`, whose length is `length - 1`
unconditionally, and every push in `eval_body` precedes its pop, so the
truncated subtraction never loses information. -/

theorem updateLastScope_length (k : Symbol) (v : LispObject) :
    ∀ l : List Scope, (updateLastScope k v l).length = l.length := by
  intro l
  induction l with
  | nil => rfl
  | cons sc rest ih =>
      cases rest with
      | nil => rfl
      | cons sc2 rest2 => simpa [updateLastScope] using ih

theorem env_set_length (e : Env) (k : Symbol) (v : LispObject) :
    (e.set k v).vars.length = e.vars.length := by
  cases e with
  | mk vars => cases vars <;> rfl

theorem env_global_length (e : Env) (k : Symbol) (v : LispObject) :
    (e.global k v).vars.length = e.vars.length :=
  updateLastScope_length k v e.vars

theorem env_setFold_length :
    ∀ (b : List (Symbol × LispObject)) (e : Env),
      (b.foldl (fun e p => e.set p.1 p.2) e).vars.length = e.vars.length := by
  intro b
  induction b with
  | nil => intro e; rfl
  | cons p rest ih =>
      intro e
      simpa [List.foldl, env_set_length] using
        (ih (e.set p.1 p.2)).trans (env_set_length e p.1 p.2)

theorem evalListWith_depth (ev : EvalFn)
    (hev : ∀ st o, ((ev st o).2).env.vars.length = st.env.vars.length) :
    ∀ (objs : List LispObject) (st : InterpSt) (idx : Nat),
      ((evalListWith ev st objs idx).2).env.vars.length = st.env.vars.length := by
  intro objs
  induction objs with
  | nil => intro st idx; rfl
  | cons o rest ih =>
      intro st idx
      unfold evalListWith
      cases h : ev st o with
      | mk r st' =>
          have h1 : st'.env.vars.length = st.env.vars.length := by
            have := hev st o; rw [h] at this; exact this
          cases r with
          | ok v =>
              simp only
              cases h2 : evalListWith ev st' rest (idx + 1) with
              | mk r2 st'' =>
                  have h3 : st''.env.vars.length = st'.env.vars.length := by
                    have := ih st' (idx + 1); rw [h2] at this; exact this
                  cases r2 <;> simpa using h3.trans h1
          | err e => simpa using h1
          | panic m => simpa using h1
          | fuelOut => simpa using h1

theorem bindParamList_depth (ev : EvalFn)
    (hev : ∀ st o, ((ev st o).2).env.vars.length = st.env.vars.length)
    (st : InterpSt) (params : ParamList) (tail : List LispObject) (evalArgs : Bool) :
    ((bindParamList ev st params tail evalArgs).2).env.vars.length
      = st.env.vars.length := by
  obtain ⟨pos, orest⟩ := params
  cases orest with
  | none =>
      cases hass : assert_args ArgMatch.exact tail pos.length
          ("param list " ++ st.symbols.serialize_param_list (pos, none)) with
      | err e => simp [bindParamList, hass]
      | panic m => exfalso; simp only [assert_args] at hass; split at hass <;> simp at hass
      | fuelOut => exfalso; simp only [assert_args] at hass; split at hass <;> simp at hass
      | ok u =>
          cases evalArgs with
          | false => simp [bindParamList, hass]
          | true =>
              cases h : evalListWith ev st tail 0 with
              | mk r st' =>
                  have h1 : st'.env.vars.length = st.env.vars.length := by
                    have := evalListWith_depth ev hev tail st 0; rw [h] at this; exact this
                  cases r with
                  | ok vs => simp [bindParamList, hass, h, h1]
                  | err p => cases p; simp [bindParamList, hass, h, h1]
                  | panic m => simp [bindParamList, hass, h, h1]
                  | fuelOut => simp [bindParamList, hass, h, h1]
  | some restSym =>
      cases hass : assert_args ArgMatch.min tail pos.length
          ("param list " ++ st.symbols.serialize_param_list (pos, some restSym)) with
      | err e => simp [bindParamList, hass]
      | panic m => exfalso; simp only [assert_args] at hass; split at hass <;> simp at hass
      | fuelOut => exfalso; simp only [assert_args] at hass; split at hass <;> simp at hass
      | ok u =>
          cases evalArgs with
          | false => simp [bindParamList, hass]
          | true =>
              cases h : evalListWith ev st tail 0 with
              | mk r st' =>
                  have h1 : st'.env.vars.length = st.env.vars.length := by
                    have := evalListWith_depth ev hev tail st 0; rw [h] at this; exact this
                  cases r with
                  | ok vs => simp [bindParamList, hass, h, h1]
                  | err p => cases p; simp [bindParamList, hass, h, h1]
                  | panic m => simp [bindParamList, hass, h, h1]
                  | fuelOut => simp [bindParamList, hass, h, h1]

theorem evalBody_depth (ev : EvalFn)
    (hev : ∀ st o, ((ev st o).2).env.vars.length = st.env.vars.length)
    (st : InterpSt) (binding : Option (List (Symbol × LispObject)))
    (forms : List LispObject) :
    ((evalBody ev st binding forms).2).env.vars.length = st.env.vars.length := by
  cases binding with
  | none =>
      cases h : evalListWith ev { st with env := st.env.push_scope } forms 0 with
      | mk r st3 =>
          have h1 : st3.env.vars.length = st.env.vars.length + 1 := by
            have := evalListWith_depth ev hev forms { st with env := st.env.push_scope } 0
            rw [h] at this
            simpa [Env.push_scope] using this
          cases r <;> simp [evalBody, h, Env.pop_scope, h1]
  | some b =>
      cases h : evalListWith ev
          { st with env := b.foldl (fun e p => e.set p.1 p.2) st.env.push_scope }
          forms 0 with
      | mk r st3 =>
          have h1 : st3.env.vars.length = st.env.vars.length + 1 := by
            have := evalListWith_depth ev hev forms
              { st with env := b.foldl (fun e p => e.set p.1 p.2) st.env.push_scope } 0
            rw [h] at this
            have hf := env_setFold_length b st.env.push_scope
            simp only [hf] at this ⊢
            simpa [Env.push_scope] using this
          cases r <;> simp [evalBody, h, Env.pop_scope, h1]

theorem evalLetBindings_depth (ev : EvalFn)
    (hev : ∀ st o, ((ev st o).2).env.vars.length = st.env.vars.length) :
    ∀ (bs : List LispObject) (st : InterpSt) (idx : Nat),
      ((evalLetBindings ev st bs idx).2).env.vars.length = st.env.vars.length := by
  intro bs
  induction bs with
  | nil => intro st idx; rfl
  | cons bform rest ih =>
      intro st idx
      cases hl : bform.as_list with
      | err e => simp [evalLetBindings, hl]
      | panic m => simp [evalLetBindings, hl]
      | fuelOut => simp [evalLetBindings, hl]
      | ok b =>
          cases b with
          | nil => simp [evalLetBindings, hl]
          | cons b0 brest =>
              cases hs : b0.as_symbol with
              | err e => simp [evalLetBindings, hl, hs]
              | panic m => simp [evalLetBindings, hl, hs]
              | fuelOut => simp [evalLetBindings, hl, hs]
              | ok s =>
                  cases brest with
                  | nil => simp [evalLetBindings, hl, hs]
                  | cons b1 brest2 =>
                      cases h : ev st b1 with
                      | mk r st' =>
                          have h1 : st'.env.vars.length = st.env.vars.length := by
                            have := hev st b1; rw [h] at this; exact this
                          cases r with
                          | ok v =>
                              cases h2 : evalLetBindings ev st' rest (idx + 1) with
                              | mk r2 st'' =>
                                  have h3 : st''.env.vars.length = st'.env.vars.length := by
                                    have := ih st' (idx + 1); rw [h2] at this; exact this
                                  cases r2 <;>
                                    simp [evalLetBindings, hl, hs, h, h2, h3.trans h1]
                          | err e => simp [evalLetBindings, hl, hs, h, h1]
                          | panic m => simp [evalLetBindings, hl, hs, h, h1]
                          | fuelOut => simp [evalLetBindings, hl, hs, h, h1]

theorem evalSpecialForm_depth (ev : EvalFn)
    (hev : ∀ st o, ((ev st o).2).env.vars.length = st.env.vars.length)
    (st : InterpSt) (sf : SpecialForm) (tail : List LispObject) :
    ((evalSpecialForm ev st sf tail).2).env.vars.length = st.env.vars.length := by
  cases sf with
  | quoteF =>
      cases hass : assert_args .exact tail 1 "special form quote" with
      | err e => simp [evalSpecialForm, hass]
      | panic m => exfalso; simp only [assert_args] at hass; split at hass <;> simp at hass
      | fuelOut => exfalso; simp only [assert_args] at hass; split at hass <;> simp at hass
      | ok u => cases tail <;> simp [evalSpecialForm, hass]
  | beginF =>
      cases hass : assert_args .min tail 1 "special form begin" with
      | err e => simp [evalSpecialForm, hass]
      | panic m => exfalso; simp only [assert_args] at hass; split at hass <;> simp at hass
      | fuelOut => exfalso; simp only [assert_args] at hass; split at hass <;> simp at hass
      | ok u =>
          cases h : evalListWith ev st tail 0 with
          | mk r st' =>
              have h1 : st'.env.vars.length = st.env.vars.length := by
                have := evalListWith_depth ev hev tail st 0; rw [h] at this; exact this
              cases r with
              | ok vs => cases hlast : vs.getLast? <;> simp [evalSpecialForm, hass, h, hlast, h1]
              | err p => cases p; simp [evalSpecialForm, hass, h, h1]
              | panic m => simp [evalSpecialForm, hass, h, h1]
              | fuelOut => simp [evalSpecialForm, hass, h, h1]
  | defF =>
      cases hass : assert_args .exact tail 2 "special form def" with
      | err e => simp [evalSpecialForm, hass]
      | panic m => exfalso; simp only [assert_args] at hass; split at hass <;> simp at hass
      | fuelOut => exfalso; simp only [assert_args] at hass; split at hass <;> simp at hass
      | ok u =>
          cases tail with
          | nil => simp [evalSpecialForm, hass]
          | cons t0 ttail =>
              cases ttail with
              | nil => simp [evalSpecialForm, hass]
              | cons t1 trest =>
                  cases t0 with
                  | symbol s =>
                      cases h : ev st t1 with
                      | mk r st' =>
                          have h1 : st'.env.vars.length = st.env.vars.length := by
                            have := hev st t1; rw [h] at this; exact this
                          cases r <;>
                            simp [evalSpecialForm, hass, h, env_global_length, h1]
                  | bool b => simp [evalSpecialForm, hass]
                  | specialForm sf => simp [evalSpecialForm, hass]
                  | string s => simp [evalSpecialForm, hass]
                  | number n => simp [evalSpecialForm, hass]
                  | list l => simp [evalSpecialForm, hass]
                  | native ps nid => simp [evalSpecialForm, hass]
                  | lambda ps body => simp [evalSpecialForm, hass]
                  | mac ps body => simp [evalSpecialForm, hass]
  | setF =>
      cases hass : assert_args .exact tail 2 "special form set" with
      | err e => simp [evalSpecialForm, hass]
      | panic m => exfalso; simp only [assert_args] at hass; split at hass <;> simp at hass
      | fuelOut => exfalso; simp only [assert_args] at hass; split at hass <;> simp at hass
      | ok u =>
          cases tail with
          | nil => simp [evalSpecialForm, hass]
          | cons t0 ttail =>
              cases ttail with
              | nil => simp [evalSpecialForm, hass]
              | cons t1 trest =>
                  cases t0 with
                  | symbol s =>
                      cases h : ev st t1 with
                      | mk r st' =>
                          have h1 : st'.env.vars.length = st.env.vars.length := by
                            have := hev st t1; rw [h] at this; exact this
                          cases r <;>
                            simp [evalSpecialForm, hass, h, env_set_length, h1]
                  | bool b => simp [evalSpecialForm, hass]
                  | specialForm sf => simp [evalSpecialForm, hass]
                  | string s => simp [evalSpecialForm, hass]
                  | number n => simp [evalSpecialForm, hass]
                  | list l => simp [evalSpecialForm, hass]
                  | native ps nid => simp [evalSpecialForm, hass]
                  | lambda ps body => simp [evalSpecialForm, hass]
                  | mac ps body => simp [evalSpecialForm, hass]
  | ifF =>
      cases hass : assert_args .min tail 2 "special form if" with
      | err e => simp [evalSpecialForm, hass]
      | panic m => exfalso; simp only [assert_args] at hass; split at hass <;> simp at hass
      | fuelOut => exfalso; simp only [assert_args] at hass; split at hass <;> simp at hass
      | ok u =>
          cases tail with
          | nil => simp [evalSpecialForm, hass]
          | cons t0 ttail =>
              cases ttail with
              | nil => simp [evalSpecialForm, hass]
              | cons t1 trest =>
                  cases h : ev st t0 with
                  | mk r st1 =>
                      have h1 : st1.env.vars.length = st.env.vars.length := by
                        have := hev st t0; rw [h] at this; exact this
                      cases r with
                      | ok pv =>
                          cases hb : pv.as_bool with
                          | ok b =>
                              cases b with
                              | true =>
                                  cases h2 : ev st1 t1 with
                                  | mk r2 st2 =>
                                      have h3 : st2.env.vars.length = st1.env.vars.length := by
                                        have := hev st1 t1; rw [h2] at this; exact this
                                      cases r2 <;>
                                        simp [evalSpecialForm, hass, h, hb, h2, h3.trans h1]
                              | false =>
                                  cases trest with
                                  | nil => simp [evalSpecialForm, hass, h, hb, h1]
                                  | cons e1 erest =>
                                      cases h2 : evalListWith ev st1 (e1 :: erest) 0 with
                                      | mk r2 st2 =>
                                          have h3 : st2.env.vars.length
                                              = st1.env.vars.length := by
                                            have := evalListWith_depth ev hev
                                              (e1 :: erest) st1 0
                                            rw [h2] at this; exact this
                                          cases r2 with
                                          | ok vs =>
                                              cases hlast : vs.getLast? <;>
                                                simp [evalSpecialForm, hass, h, hb, h2,
                                                  hlast, h3.trans h1]
                                          | err p =>
                                              cases p
                                              simp [evalSpecialForm, hass, h, hb, h2,
                                                h3.trans h1]
                                          | panic m =>
                                              simp [evalSpecialForm, hass, h, hb, h2,
                                                h3.trans h1]
                                          | fuelOut =>
                                              simp [evalSpecialForm, hass, h, hb, h2,
                                                h3.trans h1]
                          | err e => simp [evalSpecialForm, hass, h, hb, h1]
                          | panic m => simp [evalSpecialForm, hass, h, hb, h1]
                          | fuelOut => simp [evalSpecialForm, hass, h, hb, h1]
                      | err e => simp [evalSpecialForm, hass, h, h1]
                      | panic m => simp [evalSpecialForm, hass, h, h1]
                      | fuelOut => simp [evalSpecialForm, hass, h, h1]
  | letF =>
      cases hass : assert_args .min tail 2 "special form let" with
      | err e => simp [evalSpecialForm, hass]
      | panic m => exfalso; simp only [assert_args] at hass; split at hass <;> simp at hass
      | fuelOut => exfalso; simp only [assert_args] at hass; split at hass <;> simp at hass
      | ok u =>
          cases tail with
          | nil => simp [evalSpecialForm, hass]
          | cons t0 body =>
              cases hl : t0.as_list with
              | err e => simp [evalSpecialForm, hass, hl]
              | panic m => simp [evalSpecialForm, hass, hl]
              | fuelOut => simp [evalSpecialForm, hass, hl]
              | ok bindingForms =>
                  cases h : evalLetBindings ev st bindingForms 0 with
                  | mk r st1 =>
                      have h1 : st1.env.vars.length = st.env.vars.length := by
                        have := evalLetBindings_depth ev hev bindingForms st 0
                        rw [h] at this; exact this
                      cases r with
                      | ok binding =>
                          cases h2 : evalBody ev st1 (some binding) body with
                          | mk r2 st2 =>
                              have h3 : st2.env.vars.length = st1.env.vars.length := by
                                have := evalBody_depth ev hev st1 (some binding) body
                                rw [h2] at this; exact this
                              cases r2 with
                              | ok v => simp [evalSpecialForm, hass, hl, h, h2, h3.trans h1]
                              | err p =>
                                  cases p
                                  simp [evalSpecialForm, hass, hl, h, h2, h3.trans h1]
                              | panic m =>
                                  simp [evalSpecialForm, hass, hl, h, h2, h3.trans h1]
                              | fuelOut =>
                                  simp [evalSpecialForm, hass, hl, h, h2, h3.trans h1]
                      | err e => simp [evalSpecialForm, hass, hl, h, h1]
                      | panic m => simp [evalSpecialForm, hass, hl, h, h1]
                      | fuelOut => simp [evalSpecialForm, hass, hl, h, h1]

theorem evalForm_depth (ev : EvalFn)
    (hev : ∀ st o, ((ev st o).2).env.vars.length = st.env.vars.length)
    (st : InterpSt) (lst tail : List LispObject) :
    ((evalForm ev st lst tail).2).env.vars.length = st.env.vars.length := by
  cases hp : parseFunctionDef st.symbols lst with
  | err e => simp [evalForm, hp]
  | panic m => simp [evalForm, hp]
  | fuelOut => simp [evalForm, hp]
  | ok fd =>
      obtain ⟨params, forms, isMac⟩ := fd
      cases hb : bindParamList ev st params tail !isMac with
      | mk rb st1 =>
          have h1 : st1.env.vars.length = st.env.vars.length := by
            have := bindParamList_depth ev hev st params tail !isMac
            rw [hb] at this; exact this
          cases rb with
          | ok binding =>
              cases h2 : evalBody ev st1 (some binding) forms with
              | mk r2 st2 =>
                  have h3 : st2.env.vars.length = st1.env.vars.length := by
                    have := evalBody_depth ev hev st1 (some binding) forms
                    rw [h2] at this; exact this
                  cases r2 with
                  | ok result =>
                      cases isMac with
                      | false =>
                          simp only [Bool.not_false] at hb
                          simp [evalForm, hp, hb, h2, h3.trans h1]
                      | true =>
                          simp only [Bool.not_true] at hb
                          cases h4 : ev st2 result with
                          | mk r3 st3 =>
                              have h5 : st3.env.vars.length = st2.env.vars.length := by
                                have := hev st2 result; rw [h4] at this; exact this
                              cases r3 <;>
                                simp [evalForm, hp, hb, h2, h4,
                                  (h5.trans h3).trans h1]
                  | err p => cases p; simp [evalForm, hp, hb, h2, h3.trans h1]
                  | panic m => simp [evalForm, hp, hb, h2, h3.trans h1]
                  | fuelOut => simp [evalForm, hp, hb, h2, h3.trans h1]
          | err eb => simp [evalForm, hp, hb, h1]
          | panic m => simp [evalForm, hp, hb, h1]
          | fuelOut => simp [evalForm, hp, hb, h1]

/-- Claim C6: every call to the evaluator leaves the environment's
scope-stack depth exactly as it found it, on every exit path — `ok`,
`err`, `panic` and fuel exhaustion alike — so a failing top-level form
leaves the scope stack balanced for the next one. -/
theorem c6_eval_scope_depth_invariant :
    ∀ (fuel : Nat) (st : InterpSt) (obj : LispObject),
      ((eval fuel st obj).2).env.vars.length = st.env.vars.length := by
  intro fuel
  induction fuel with
  | zero => intro st obj; rfl
  | succ f ih =>
      intro st obj
      cases obj with
      | list l =>
          cases l with
          | nil => rfl
          | cons l0 tail =>
              cases h0 : eval f st l0 with
              | mk r st1 =>
                  have h1 : st1.env.vars.length = st.env.vars.length := by
                    have := ih st l0; rw [h0] at this; exact this
                  cases r with
                  | ok head =>
                      cases head with
                      | specialForm sf =>
                          have h2 := evalSpecialForm_depth (eval f) ih st1 sf tail
                          simp only [eval, h0]
                          exact h2.trans h1
                      | native params nid =>
                          cases h2 : bindParamList (eval f) st1 params tail true with
                          | mk rb st2 =>
                              have h3 : st2.env.vars.length = st1.env.vars.length := by
                                have := bindParamList_depth (eval f) ih st1 params tail true
                                rw [h2] at this; exact this
                              cases rb with
                              | ok binding => simp [eval, h0, h2, h3.trans h1]
                              | err p => cases p; simp [eval, h0, h2, h3.trans h1]
                              | panic m => simp [eval, h0, h2, h3.trans h1]
                              | fuelOut => simp [eval, h0, h2, h3.trans h1]
                      | list lst =>
                          cases h2 : evalForm (eval f) st1 lst tail with
                          | mk rf st2 =>
                              have h3 : st2.env.vars.length = st1.env.vars.length := by
                                have := evalForm_depth (eval f) ih st1 lst tail
                                rw [h2] at this; exact this
                              cases rf with
                              | ok v => simp [eval, h0, h2, h3.trans h1]
                              | err p =>
                                  cases p with
                                  | mk e b =>
                                      cases b <;> simp [eval, h0, h2, h3.trans h1]
                              | panic m => simp [eval, h0, h2, h3.trans h1]
                              | fuelOut => simp [eval, h0, h2, h3.trans h1]
                      | bool b => simp only [eval, h0]; exact h1
                      | symbol s => simp only [eval, h0]; exact h1
                      | string s => simp only [eval, h0]; exact h1
                      | number n => simp only [eval, h0]; exact h1
                      | lambda ps body => simp only [eval, h0]; exact h1
                      | mac ps body => simp only [eval, h0]; exact h1
                  | err e => simp only [eval, h0]; exact h1
                  | panic m => simp only [eval, h0]; exact h1
                  | fuelOut => simp only [eval, h0]; exact h1
      | symbol s => cases hr : st.env.resolve s <;> simp [eval, hr]
      | string s => rfl
      | number n => rfl
      | bool b => rfl
      | native p nid => rfl
      | specialForm sf => rfl
      | lambda ps body => rfl
      | mac ps body => rfl

/-! ## Decimal rendering lemmas (for claim C2's number round trip) -/

theorem digitChar_isDigit (d : Nat) (h : d < 10) : (digitChar d).isDigit = true := by
  interval_cases d <;> decide

theorem charVal_digitChar (d : Nat) (h : d < 10) : charVal (digitChar d) = d := by
  interval_cases d <;> decide

theorem natDigitsRev_ne_nil (fuel n : Nat) (h : 0 < fuel) : natDigitsRev fuel n ≠ [] := by
  cases fuel with
  | zero => omega
  | succ f => unfold natDigitsRev; split <;> simp

theorem natDigitsRev_all_digits :
    ∀ (fuel n : Nat), (natDigitsRev fuel n).all Char.isDigit = true := by
  intro fuel
  induction fuel with
  | zero => intro n; rfl
  | succ f ih =>
      intro n
      unfold natDigitsRev
      by_cases h : n < 10
      · simp [h, digitChar_isDigit n h]
      · simp [h, digitChar_isDigit (n % 10) (Nat.mod_lt _ (by norm_num)), ih]

theorem digitsValRev_natDigitsRev :
    ∀ (fuel n : Nat), n < fuel → digitsValRev (natDigitsRev fuel n) = n := by
  intro fuel
  induction fuel with
  | zero => intro n h; omega
  | succ f ih =>
      intro n h
      unfold natDigitsRev
      by_cases h10 : n < 10
      · simp [h10, digitsValRev, charVal_digitChar n h10]
      · have hd : n / 10 < f := by omega
        simp [h10, digitsValRev, charVal_digitChar (n % 10) (by omega), ih _ hd]
        omega

theorem digitsVal_natDecimal (n : Nat) : digitsVal (natDecimal n) = n := by
  unfold digitsVal natDecimal
  rw [List.reverse_reverse]
  exact digitsValRev_natDigitsRev (n + 1) n (Nat.lt_succ_self n)

theorem natDecimal_ne_nil (n : Nat) : natDecimal n ≠ [] := by
  unfold natDecimal
  simpa using natDigitsRev_ne_nil (n + 1) n (Nat.succ_pos n)

theorem natDecimal_all_digits (n : Nat) : (natDecimal n).all Char.isDigit = true := by
  unfold natDecimal
  simpa using natDigitsRev_all_digits (n + 1) n

/-! ## `takeWhile`/`dropWhile` helpers -/

theorem takeWhile_append_all {α : Type} (p : α → Bool) :
    ∀ (a b : List α), a.all p = true → (a ++ b).takeWhile p = a ++ b.takeWhile p := by
  intro a
  induction a with
  | nil => intro b _; simp
  | cons x xs ih =>
      intro b h
      simp only [List.all_cons, Bool.and_eq_true] at h
      simp [List.takeWhile_cons, h.1, ih b h.2]

theorem dropWhile_append_all {α : Type} (p : α → Bool) :
    ∀ (a b : List α), a.all p = true → (a ++ b).dropWhile p = b.dropWhile p := by
  intro a
  induction a with
  | nil => intro b _; simp
  | cons x xs ih =>
      intro b h
      simp only [List.all_cons, Bool.and_eq_true] at h
      simp [List.dropWhile_cons, h.1, ih b h.2]

theorem takeWhile_headfalse {α : Type} (p : α → Bool) :
    ∀ (b : List α), (∀ x t, b = x :: t → p x = false) → b.takeWhile p = [] := by
  intro b h
  cases b with
  | nil => rfl
  | cons x t => simp [List.takeWhile_cons, h x t rfl]

theorem dropWhile_headfalse {α : Type} (p : α → Bool) :
    ∀ (b : List α), (∀ x t, b = x :: t → p x = false) → b.dropWhile p = b := by
  intro b h
  cases b with
  | nil => rfl
  | cons x t => simp [List.dropWhile_cons, h x t rfl]

/-- Delimiter heads fail the digit, symbol-character and text predicates
and are not `.`/`-`/`"`. -/
theorem delimHead_props {r : List Char} (hr : DelimHead r) :
    ∀ x t, r = x :: t →
      x.isDigit = false ∧ isSymChar x = false ∧ x ≠ '.' ∧ x ≠ '-' ∧ x ≠ '"' := by
  intro x t hx
  rcases hr with h | ⟨t', h⟩ | ⟨t', h⟩
  · rw [h] at hx; cases hx
  · rw [h] at hx
    cases hx
    refine ⟨by decide, by decide, by decide, by decide, by decide⟩
  · rw [h] at hx
    cases hx
    refine ⟨by decide, by decide, by decide, by decide, by decide⟩

/-! ## Lexer stepping lemmas (claim C2) -/

/-- A decimal digit character is none of the punctuation the lexer treats
specially. -/
theorem digit_char_facts (c : Char) (h : c.isDigit = true) :
    c ≠ '-' ∧ c ≠ '.' ∧ c ≠ '"' ∧ c ≠ '(' ∧ c ≠ ')' ∧ c ≠ '#' ∧
      isLexWs c = false ∧ isSymChar c = true := by
  have hws : isLexWs c = false := by
    cases hw : isLexWs c with
    | false => rfl
    | true =>
        exfalso
        simp only [isLexWs, Bool.or_eq_true, decide_eq_true_eq] at hw
        rcases hw with ((rfl | rfl) | rfl) | rfl <;> exact absurd h (by decide)
  have hp : c ≠ '(' := fun hc => by subst hc; exact absurd h (by decide)
  have hq : c ≠ ')' := fun hc => by subst hc; exact absurd h (by decide)
  refine ⟨fun hc => by subst hc; exact absurd h (by decide),
    fun hc => by subst hc; exact absurd h (by decide),
    fun hc => by subst hc; exact absurd h (by decide),
    hp, hq,
    fun hc => by subst hc; exact absurd h (by decide),
    hws, ?_⟩
  simp [isSymChar, hws, hp, hq]

/-- After a plain name's optional `-`/`.` head, no digit run can start:
the digit `takeWhile` over the remaining name plus a delimited suffix is
empty. -/
theorem takeWhile_digits_nil (t r : List Char) (hps : plainStartOk t = true)
    (hr : DelimHead r) : (t ++ r).takeWhile Char.isDigit = [] := by
  cases t with
  | nil =>
      simp only [List.nil_append]
      exact takeWhile_headfalse _ r fun x t' hx => (delimHead_props hr x t' hx).1
  | cons d t' =>
      simp only [plainStartOk, Bool.and_eq_true, Bool.not_eq_true'] at hps
      apply takeWhile_headfalse
      intro x t'' hx
      rw [List.cons_append] at hx
      cases hx
      exact hps.1

/-- Under the same conditions the remaining input does not start with a
dot. -/
theorem head_not_dot (t r : List Char) (hps : plainStartOk t = true)
    (hr : DelimHead r) : ∀ x t', t ++ r = x :: t' → x ≠ '.' := by
  intro x t' hx
  cases t with
  | nil =>
      simp only [List.nil_append] at hx
      exact (delimHead_props hr x t' hx).2.2.1
  | cons d td =>
      rw [List.cons_append] at hx
      cases hx
      simp only [plainStartOk, Bool.and_eq_true, Bool.not_eq_true',
        decide_eq_true_eq, ne_eq] at hps
      simpa using hps.2

/-- A plain name's tail plus a delimited suffix neither starts with a
digit run nor survives a digit `dropWhile`. -/
theorem dropWhile_digits_id (t r : List Char) (hps : plainStartOk t = true)
    (hr : DelimHead r) : (t ++ r).dropWhile Char.isDigit = t ++ r := by
  cases t with
  | nil =>
      simp only [List.nil_append]
      exact dropWhile_headfalse _ r fun x t' hx => (delimHead_props hr x t' hx).1
  | cons d t' =>
      apply dropWhile_headfalse
      intro x t'' hx
      rw [List.cons_append] at hx
      cases hx
      simp only [plainStartOk, Bool.and_eq_true, Bool.not_eq_true'] at hps
      exact hps.1

/-- The head of a plain name's tail plus a delimited suffix is not a
dot. -/
theorem head_ne_dot (t r : List Char) (hps : plainStartOk t = true)
    (hr : DelimHead r) : ¬((t ++ r).head? = some '.') := by
  intro hdot
  cases hx : t ++ r with
  | nil => rw [hx] at hdot; cases hdot
  | cons x t' =>
      rw [hx] at hdot
      simp only [List.head?_cons, Option.some.injEq] at hdot
      exact head_not_dot t r hps hr x t' hx hdot

/-- The number pattern does not match at the start of a plain symbol
name followed by a delimiter. -/
theorem numMatch_none_of_plain (c : Char) (t r : List Char)
    (hp : plainNameL (c :: t) = true) (hr : DelimHead r) :
    numMatch (c :: (t ++ r)) = none := by
  simp only [plainNameL, Bool.and_eq_true] at hp
  obtain ⟨⟨⟨⟨hall, hh⟩, hq⟩, hdig⟩, hdisj⟩ := hp
  rw [Bool.not_eq_true'] at hdig
  by_cases hc : c = '-'
  · subst hc
    have hps : plainStartOk t = true := by simpa using hdisj
    have htw := takeWhile_digits_nil t r hps hr
    have hdw := dropWhile_digits_id t r hps hr
    have hnd := head_ne_dot t r hps hr
    simp [numMatch, htw, hdw, hnd, -List.head?_append]
  · by_cases hcd : c = '.'
    · subst hcd
      have hps : plainStartOk t = true := by simpa using hdisj
      have htake : ('.' :: (t ++ r)).takeWhile Char.isDigit = [] :=
        takeWhile_headfalse _ _ (by intro x t' hx; cases hx; decide)
      have hdrop : ('.' :: (t ++ r)).dropWhile Char.isDigit = '.' :: (t ++ r) :=
        dropWhile_headfalse _ _ (by intro x t' hx; cases hx; decide)
      have htw2 := takeWhile_digits_nil t r hps hr
      simp [numMatch, htake, hdrop, htw2]
    · have htake : (c :: (t ++ r)).takeWhile Char.isDigit = [] :=
        takeWhile_headfalse _ _ (by intro x t' hx; cases hx; exact hdig)
      have hdrop : (c :: (t ++ r)).dropWhile Char.isDigit = c :: (t ++ r) :=
        dropWhile_headfalse _ _ (by intro x t' hx; cases hx; exact hdig)
      simp [numMatch, htake, hdrop, hc, hcd]

/-- The number pattern consumes exactly a serialized integer before a
delimiter. -/
theorem numMatch_intDecimal (z : Int) (r : List Char) (hr : DelimHead r) :
    numMatch (intDecimal z ++ r)
      = some (numValue (decide (z < 0)) (natDecimal z.natAbs) [], r) := by
  obtain ⟨c, cs, hn⟩ : ∃ c cs, natDecimal z.natAbs = c :: cs := by
    cases h : natDecimal z.natAbs with
    | nil => exact absurd h (natDecimal_ne_nil _)
    | cons c cs => exact ⟨c, cs, rfl⟩
  have hall := natDecimal_all_digits z.natAbs
  have hc : c.isDigit = true := by
    rw [hn] at hall
    simp only [List.all_cons, Bool.and_eq_true] at hall
    exact hall.1
  obtain ⟨hc1, _, _, _, _, _, _, _⟩ := digit_char_facts c hc
  have hall' := natDecimal_all_digits z.natAbs
  have htake : (natDecimal z.natAbs ++ r).takeWhile Char.isDigit = natDecimal z.natAbs := by
    rw [takeWhile_append_all _ _ _ hall']
    rw [takeWhile_headfalse Char.isDigit r fun x t hx => (delimHead_props hr x t hx).1]
    simp
  have hdrop : (natDecimal z.natAbs ++ r).dropWhile Char.isDigit = r := by
    rw [dropWhile_append_all _ _ _ hall']
    exact dropWhile_headfalse _ _ fun x t hx => (delimHead_props hr x t hx).1
  have hndot : ¬(r.head? = some '.') := by
    intro hdot
    cases hx : r with
    | nil => rw [hx] at hdot; cases hdot
    | cons x t =>
        rw [hx] at hdot
        simp only [List.head?_cons, Option.some.injEq] at hdot
        exact (delimHead_props hr x t hx).2.2.1 hdot
  have hne : (natDecimal z.natAbs).isEmpty = false := by
    rw [hn]; rfl
  by_cases hz : z < 0
  · have hint : intDecimal z = '-' :: natDecimal z.natAbs := by
      simp [intDecimal, hz]
    rw [hint, List.cons_append]
    simp [numMatch, htake, hdrop, hndot, hne, hz, -List.head?_append]
  · have hint : intDecimal z = natDecimal z.natAbs := by
      simp [intDecimal, hz]
    rw [hint]
    have hhead : ¬((natDecimal z.natAbs ++ r).head? = some '-') := by
      rw [hn, List.cons_append]
      simp only [List.head?_cons, Option.some.injEq]
      exact hc1
    simp [numMatch, hhead, htake, hdrop, hndot, hne, hz, -List.head?_append]

/-- The matched value of a serialized integral rational is that
rational. -/
theorem numValue_intDecimal (q : ℚ) (hq : q.den = 1) :
    numValue (decide (q.num < 0)) (natDecimal q.num.natAbs) [] = q := by
  have hden : ((q.num : ℚ)) = q := (Rat.den_eq_one_iff q).mp hq
  unfold numValue
  simp only [List.isEmpty_nil, if_true, digitsVal_natDecimal]
  by_cases hz : q.num < 0
  · rw [if_pos (by simpa using hz)]
    rw [Int.cast_natAbs]
    rw [abs_of_neg hz, Int.cast_neg, neg_neg, hden]
  · rw [if_neg (by simpa using hz)]
    rw [Int.cast_natAbs]
    rw [abs_of_nonneg (not_lt.mp hz), hden]

/-- One normal-mode lexer step over a plain symbol name. -/
theorem lexStep_symbol (name : String) (fuel : Nat) (r : List Char)
    (hp : plainName name = true) (hr : DelimHead r) :
    lexAll (fuel + 1) .object (name.data ++ r)
      = .object (.symbol name) :: lexAll fuel .object r := by
  obtain ⟨c, t, hn⟩ : ∃ c t, name.data = c :: t := by
    cases h : name.data with
    | nil => rw [plainName, h] at hp; cases hp
    | cons c t => exact ⟨c, t, rfl⟩
  have hp' : plainNameL (c :: t) = true := by rw [plainName, hn] at hp; exact hp
  have hfacts := hp'
  simp only [plainNameL, Bool.and_eq_true] at hfacts
  obtain ⟨⟨⟨⟨hall, hh⟩, hq⟩, _⟩, _⟩ := hfacts
  have hcsym : isSymChar c = true := by
    simp only [List.all_cons, Bool.and_eq_true] at hall
    exact hall.1
  have hcws : isLexWs c = false := by
    simp only [isSymChar, Bool.and_eq_true, Bool.not_eq_true'] at hcsym
    exact hcsym.1.1
  have hcp : c ≠ '(' := by
    simp only [isSymChar, Bool.and_eq_true, decide_eq_true_eq] at hcsym
    exact hcsym.1.2
  have hcq : c ≠ ')' := by
    simp only [isSymChar, Bool.and_eq_true, decide_eq_true_eq] at hcsym
    exact hcsym.2
  have hh' : c ≠ '#' := by simpa using hh
  have hq' : c ≠ '"' := by simpa using hq
  have htake : (c :: (t ++ r)).takeWhile isSymChar = name.data := by
    rw [show (c :: (t ++ r)) = (c :: t) ++ r from rfl]
    rw [takeWhile_append_all _ _ _ hall]
    rw [takeWhile_headfalse isSymChar r fun x t' hx => (delimHead_props hr x t' hx).2.1]
    rw [List.append_nil, hn]
  have hdrop : (c :: (t ++ r)).dropWhile isSymChar = r := by
    rw [show (c :: (t ++ r)) = (c :: t) ++ r from rfl]
    rw [dropWhile_append_all _ _ _ hall]
    exact dropWhile_headfalse _ _ fun x t' hx => (delimHead_props hr x t' hx).2.1
  have hdwws : (c :: (t ++ r)).dropWhile isLexWs = c :: (t ++ r) :=
    dropWhile_headfalse _ _ (by intro x t' hx; cases hx; exact hcws)
  rw [hn, List.cons_append]
  rw [lexAll]
  rw [hdwws]
  split
  · rename_i heq; exact absurd heq (by simp)
  · rename_i t' heq
    injection heq with h1 h2
    exact absurd h1 hcp
  · rename_i t' heq
    injection heq with h1 h2
    exact absurd h1 hcq
  · rename_i t' heq
    injection heq with h1 h2
    exact absurd h1 hh'
  · rename_i t' heq
    injection heq with h1 h2
    exact absurd h1 hh'
  · rename_i c' t' heq
    injection heq with h1 h2
    subst h1
    subst h2
    rw [numMatch_none_of_plain c t r hp' hr]
    simp only [if_neg hq']
    rw [htake, hdrop]

/-- One normal-mode lexer step over a serialized integral number. -/
theorem lexStep_number (q : ℚ) (hq : q.den = 1) (fuel : Nat) (r : List Char)
    (hr : DelimHead r) :
    lexAll (fuel + 1) .object ((numToString q).data ++ r)
      = .object (.number q) :: lexAll fuel .object r := by
  have hnum : (numToString q).data = intDecimal q.num := by
    simp only [numToString, hq, if_true]
  have hmatch := numMatch_intDecimal q.num r hr
  have hval := numValue_intDecimal q hq
  obtain ⟨c0, t0, hi, hws0, hp0, hq0, hh0⟩ :
      ∃ c0 t0, intDecimal q.num = c0 :: t0 ∧ isLexWs c0 = false ∧
        c0 ≠ '(' ∧ c0 ≠ ')' ∧ c0 ≠ '#' := by
    by_cases hz : q.num < 0
    · exact ⟨'-', natDecimal q.num.natAbs, by simp [intDecimal, hz], by decide,
        by decide, by decide, by decide⟩
    · obtain ⟨c, cs, hn⟩ : ∃ c cs, natDecimal q.num.natAbs = c :: cs := by
        cases h : natDecimal q.num.natAbs with
        | nil => exact absurd h (natDecimal_ne_nil _)
        | cons c cs => exact ⟨c, cs, rfl⟩
      have hall := natDecimal_all_digits q.num.natAbs
      have hc : c.isDigit = true := by
        rw [hn] at hall
        simp only [List.all_cons, Bool.and_eq_true] at hall
        exact hall.1
      obtain ⟨_, _, _, hc4, hc5, hc6, hc7, _⟩ := digit_char_facts c hc
      exact ⟨c, cs, by simp [intDecimal, hz, hn], hc7, hc4, hc5, hc6⟩
  rw [hi, List.cons_append] at hmatch
  rw [hnum, hi, List.cons_append]
  rw [lexAll]
  have hdwws : (c0 :: (t0 ++ r)).dropWhile isLexWs = c0 :: (t0 ++ r) :=
    dropWhile_headfalse _ _ (by intro x t' hx; cases hx; exact hws0)
  rw [hdwws]
  split
  · rename_i heq; exact absurd heq (by simp)
  · rename_i t' heq; injection heq with h1 h2; exact absurd h1 hp0
  · rename_i t' heq; injection heq with h1 h2; exact absurd h1 hq0
  · rename_i t' heq; injection heq with h1 h2; exact absurd h1 hh0
  · rename_i t' heq; injection heq with h1 h2; exact absurd h1 hh0
  · rename_i c' t' heq
    injection heq with h1 h2
    subst h1
    subst h2
    rw [hmatch, hval]

/-- One string-mode lexer step over quote-free, backslash-free text. -/
theorem lexStep_text (s : String) (fuel : Nat) (r : List Char)
    (hs : s.data.all isTextChar = true) (hne : s.data ≠ []) :
    lexAll (fuel + 1) .string (s.data ++ '"' :: r)
      = .string (.text s) :: lexAll fuel .string ('"' :: r) := by
  obtain ⟨c, t, hn⟩ : ∃ c t, s.data = c :: t := by
    cases h : s.data with
    | nil => exact absurd h hne
    | cons c t => exact ⟨c, t, rfl⟩
  have hall : (c :: t).all isTextChar = true := by rw [← hn]; exact hs
  have hc : isTextChar c = true := by
    simp only [List.all_cons, Bool.and_eq_true] at hall
    exact hall.1
  have hcq : c ≠ '"' := by
    simp only [isTextChar, Bool.and_eq_true, decide_eq_true_eq] at hc
    exact hc.1
  have hcb : c ≠ '\\' := by
    simp only [isTextChar, Bool.and_eq_true, decide_eq_true_eq] at hc
    exact hc.2
  have htake : (c :: (t ++ '"' :: r)).takeWhile isTextChar = s.data := by
    rw [show (c :: (t ++ '"' :: r)) = (c :: t) ++ '"' :: r from rfl]
    rw [takeWhile_append_all _ _ _ hall]
    rw [takeWhile_headfalse isTextChar ('"' :: r) (by intro x t' hx; cases hx; decide)]
    rw [List.append_nil, hn]
  have hdrop : (c :: (t ++ '"' :: r)).dropWhile isTextChar = '"' :: r := by
    rw [show (c :: (t ++ '"' :: r)) = (c :: t) ++ '"' :: r from rfl]
    rw [dropWhile_append_all _ _ _ hall]
    exact dropWhile_headfalse _ _ (by intro x t' hx; cases hx; decide)
  rw [hn, List.cons_append]
  rw [lexAll, htake, hdrop]
  · exact fun h => hcq h
  · exact fun h => hcb h

/-- A leading space is skipped without consuming fuel (whitespace is
absorbed into the following token's step). -/
theorem lexAll_ws (f : Nat) (x : List Char) :
    lexAll f .object (' ' :: x) = lexAll f .object x := by
  cases f with
  | zero => rfl
  | succ f =>
      have h : (' ' :: x).dropWhile isLexWs = x.dropWhile isLexWs := by
        simp [List.dropWhile_cons, isLexWs]
      simp only [lexAll, h]

/-- The lexer turns the serialization of a C2-fragment value, followed
by a delimited suffix, into the value's token stream followed by the
lexing of the suffix; one fuel unit is consumed per token. -/
theorem lexAll_serialize (syms : Symbols) :
    ∀ (v : LispObject), goodW syms v = true →
      ∀ (fuel : Nat) (r : List Char), DelimHead r →
        lexAll (fuel + (toksOf syms v).length) .object
            ((syms.serialize_object v).data ++ r)
          = toksOf syms v ++ lexAll fuel .object r := by
  suffices H : ∀ (n : Nat) (v : LispObject), sizeOf v ≤ n → goodW syms v = true →
      ∀ (fuel : Nat) (r : List Char), DelimHead r →
        lexAll (fuel + (toksOf syms v).length) .object
            ((syms.serialize_object v).data ++ r)
          = toksOf syms v ++ lexAll fuel .object r by
    exact fun v hg fuel r hr => H (sizeOf v) v (Nat.le_refl _) hg fuel r hr
  intro n
  induction n with
  | zero =>
      intro v hsz
      exfalso
      cases v <;> simp at hsz
  | succ n ih =>
      intro v hsz hg fuel r hr
      cases v with
      | bool b => cases b <;> rfl
      | number q =>
          have hq : q.den = 1 := by simpa [goodW] using hg
          exact lexStep_number q hq fuel r hr
      | string s =>
          have hs : s.data.all isTextChar = true := by simpa [goodW] using hg
          by_cases hne : s.data = []
          · have hs0 : s = "" := by
              cases s with
              | mk d => simp only at hne; rw [hne]
            subst hs0
            rfl
          · have hlen : (toksOf syms (.string s)).length = 3 := by
              simp [toksOf, hne]
            rw [hlen]
            have htoks : toksOf syms (.string s)
                = [.object .startString, .string (.text s), .string .endString] := by
              simp [toksOf, hne]
            rw [htoks]
            have hd : (syms.serialize_object (.string s)).data ++ r
                = '"' :: (s.data ++ '"' :: r) := by
              show (("\"" ++ s ++ "\"").data) ++ r = _
              simp [String.data_append]
            rw [hd]
            have h1 : lexAll (fuel + 3) .object ('"' :: (s.data ++ '"' :: r))
                = .object .startString ::
                    lexAll (fuel + 1 + 1) .string (s.data ++ '"' :: r) := rfl
            rw [h1, lexStep_text s (fuel + 1) r hs hne]
            rfl
      | symbol i =>
          obtain ⟨nm, hnm, hpl⟩ : ∃ nm, syms.as_string i = some nm ∧ plainName nm = true := by
            cases h : syms.as_string i with
            | none => rw [goodW, h] at hg; cases hg
            | some nm =>
                rw [goodW, h] at hg
                simp only [Bool.and_eq_true] at hg
                exact ⟨nm, rfl, hg.1⟩
          have hser : syms.serialize_object (.symbol i) = nm := by
            simp [Symbols.serialize_object, hnm]
          have htoks : toksOf syms (.symbol i) = [.object (.symbol nm)] := by
            simp [toksOf, hnm]
          rw [hser, htoks]
          exact lexStep_symbol nm fuel r hpl hr
      | list l =>
          have hgl : goodW.goodWList syms l = true := by simpa [goodW] using hg
          have hszl : sizeOf l ≤ n := by
            simp only [LispObject.list.sizeOf_spec] at hsz
            omega
          have hd : (syms.serialize_object (.list l)).data ++ r
              = '(' :: ((syms.form_to_string l).data ++ ')' :: r) := by
            show (("(" ++ syms.form_to_string l ++ ")").data) ++ r = _
            simp [String.data_append]
          have inner : ∀ (l' : List LispObject), sizeOf l' ≤ n →
              goodW.goodWList syms l' = true → ∀ (fuel' : Nat),
              lexAll (fuel' + (toksOf.toksOfList syms l').length) .object
                  ((syms.form_to_string l').data ++ ')' :: r)
                = toksOf.toksOfList syms l' ++ lexAll fuel' .object (')' :: r) := by
            intro l'
            induction l' with
            | nil => intro _ _ fuel'; rfl
            | cons o rest ihl =>
                intro hszl' hgl' fuel'
                have hszo : sizeOf o ≤ n := by
                  have : sizeOf o < sizeOf (o :: rest) := by
                    simp only [List.cons.sizeOf_spec]
                    omega
                  omega
                have hszrest : sizeOf rest ≤ n := by
                  have : sizeOf rest < sizeOf (o :: rest) := by
                    simp only [List.cons.sizeOf_spec]
                    omega
                  omega
                have hgo : goodW syms o = true := by
                  simp only [goodW.goodWList, Bool.and_eq_true] at hgl'
                  exact hgl'.1
                have hgrest : goodW.goodWList syms rest = true := by
                  simp only [goodW.goodWList, Bool.and_eq_true] at hgl'
                  exact hgl'.2
                cases rest with
                | nil =>
                    have hlen0 : (toksOf.toksOfList syms [o]).length
                        = (toksOf syms o).length := by
                      simp [toksOf.toksOfList]
                    rw [hlen0]
                    have hfs : (syms.form_to_string [o]).data
                        = (syms.serialize_object o).data := by
                      simp [Symbols.form_to_string]
                    rw [hfs]
                    have := ih o hszo hgo fuel' (')' :: r) (Or.inr (Or.inr ⟨r, rfl⟩))
                    rw [this]
                    simp [toksOf.toksOfList]
                | cons o2 rest2 =>
                    have hfs : (syms.form_to_string (o :: o2 :: rest2)).data
                        = (syms.serialize_object o).data ++
                            (' ' :: (syms.form_to_string (o2 :: rest2)).data) := by
                      show ((syms.serialize_object o ++ " " ++
                              syms.form_to_string (o2 :: rest2)).data) = _
                      simp [String.data_append]
                    rw [hfs]
                    have hlen : (toksOf.toksOfList syms (o :: o2 :: rest2)).length
                        = (toksOf syms o).length +
                            (toksOf.toksOfList syms (o2 :: rest2)).length := by
                      simp [toksOf.toksOfList]
                    rw [hlen]
                    have harith : fuel' + ((toksOf syms o).length +
                          (toksOf.toksOfList syms (o2 :: rest2)).length)
                        = (fuel' + (toksOf.toksOfList syms (o2 :: rest2)).length) +
                            (toksOf syms o).length := by omega
                    rw [harith]
                    have hassoc : (syms.serialize_object o).data ++
                          (' ' :: (syms.form_to_string (o2 :: rest2)).data) ++ ')' :: r
                        = (syms.serialize_object o).data ++
                            (' ' :: ((syms.form_to_string (o2 :: rest2)).data ++
                              ')' :: r)) := by
                      simp [List.append_assoc]
                    rw [hassoc]
                    rw [ih o hszo hgo
                      (fuel' + (toksOf.toksOfList syms (o2 :: rest2)).length)
                      (' ' :: ((syms.form_to_string (o2 :: rest2)).data ++ ')' :: r))
                      (Or.inr (Or.inl ⟨_, rfl⟩))]
                    rw [lexAll_ws]
                    rw [ihl hszrest hgrest fuel']
                    simp [toksOf.toksOfList]
          have hlen : (toksOf syms (.list l)).length
              = ((toksOf.toksOfList syms l).length + 1) + 1 := by
            simp [toksOf]
          rw [hlen, hd]
          have h1 : lexAll (fuel + ((toksOf.toksOfList syms l).length + 1 + 1)) .object
                ('(' :: ((syms.form_to_string l).data ++ ')' :: r))
              = .object .lbrace ::
                  lexAll ((fuel + 1) + (toksOf.toksOfList syms l).length) .object
                    ((syms.form_to_string l).data ++ ')' :: r) := by
            have harith : fuel + ((toksOf.toksOfList syms l).length + 1 + 1)
                = ((fuel + 1) + (toksOf.toksOfList syms l).length) + 1 := by omega
            rw [harith]
            rfl
          rw [h1, inner l hszl hgl (fuel + 1)]
          have h2 : lexAll (fuel + 1) .object (')' :: r)
              = .object .rbrace :: lexAll fuel .object r := rfl
          rw [h2]
          simp [toksOf]
      | specialForm sf => simp [goodW] at hg
      | native ps nid => simp [goodW] at hg
      | lambda ps body => simp [goodW] at hg
      | mac ps body => simp [goodW] at hg

/-- The object-mode lexer yields no token on empty input, whatever the
fuel. -/
theorem lexAll_nil (f : Nat) : lexAll f .object [] = [] := by
  cases f <;> rfl

/-- Every token of a C2-fragment serialization occupies at least one
character, so the lexer's fuel budget `length + 1` covers the whole
stream. -/
theorem ntoks_le (syms : Symbols) :
    ∀ (v : LispObject), goodW syms v = true →
      (toksOf syms v).length ≤ (syms.serialize_object v).data.length := by
  suffices H : ∀ (n : Nat) (v : LispObject), sizeOf v ≤ n → goodW syms v = true →
      (toksOf syms v).length ≤ (syms.serialize_object v).data.length by
    exact fun v hg => H (sizeOf v) v (Nat.le_refl _) hg
  intro n
  induction n with
  | zero =>
      intro v hsz
      exfalso
      cases v <;> simp at hsz
  | succ n ih =>
      intro v hsz hg
      cases v with
      | bool b => cases b <;> exact Nat.le_succ 1
      | number q =>
          have hq : q.den = 1 := by simpa [goodW] using hg
          have hd : (numToString q).data = intDecimal q.num := by
            simp [numToString, hq]
          have hnn : intDecimal q.num ≠ [] := by
            rw [intDecimal]
            split
            · simp
            · exact natDecimal_ne_nil _
          have : 0 < (numToString q).data.length := by
            rw [hd]
            exact List.length_pos.mpr hnn
          simpa [toksOf, Symbols.serialize_object] using this
      | string s =>
          have hd : (syms.serialize_object (.string s)).data
              = '"' :: s.data ++ ['"'] := by
            show (("\"" ++ s ++ "\"").data) = _
            simp [String.data_append]
          by_cases hne : s.data = []
          · simp [toksOf, hne, hd]
          · have hpos : 0 < s.data.length := List.length_pos.mpr hne
            have ht : toksOf syms (.string s)
                = [.object .startString, .string (.text s), .string .endString] := by
              simp [toksOf, hne]
            rw [ht, hd]
            simp only [List.length_cons, List.length_append,
              List.length_nil, List.length_singleton]
            omega
      | symbol i =>
          obtain ⟨nm, hnm, hpl⟩ : ∃ nm, syms.as_string i = some nm ∧
              plainName nm = true := by
            cases h : syms.as_string i with
            | none => rw [goodW, h] at hg; cases hg
            | some nm =>
                rw [goodW, h] at hg
                simp only [Bool.and_eq_true] at hg
                exact ⟨nm, rfl, hg.1⟩
          have hnn : nm.data ≠ [] := by
            intro h
            rw [plainName, h] at hpl
            cases hpl
          have hser : syms.serialize_object (.symbol i) = nm := by
            simp [Symbols.serialize_object, Symbols.as_string] at hnm ⊢
            simp [hnm]
          have htoks : toksOf syms (.symbol i) = [.object (.symbol nm)] := by
            simp [toksOf, hnm]
          rw [hser, htoks]
          simpa using List.length_pos.mpr hnn
      | list l =>
          have hgl : goodW.goodWList syms l = true := by simpa [goodW] using hg
          have hszl : sizeOf l ≤ n := by
            simp only [LispObject.list.sizeOf_spec] at hsz
            omega
          have hd : (syms.serialize_object (.list l)).data
              = '(' :: (syms.form_to_string l).data ++ [')'] := by
            show (("(" ++ syms.form_to_string l ++ ")").data) = _
            simp [String.data_append]
          have inner : ∀ (l' : List LispObject), sizeOf l' ≤ n →
              goodW.goodWList syms l' = true →
              (toksOf.toksOfList syms l').length ≤
                (syms.form_to_string l').data.length := by
            intro l'
            induction l' with
            | nil => intro _ _; simp [toksOf.toksOfList, Symbols.form_to_string]
            | cons o rest2 ihl =>
                intro hszl' hgl'
                have hszo : sizeOf o ≤ n := by
                  have : sizeOf o < sizeOf (o :: rest2) := by
                    simp only [List.cons.sizeOf_spec]
                    omega
                  omega
                have hszrest : sizeOf rest2 ≤ n := by
                  have : sizeOf rest2 < sizeOf (o :: rest2) := by
                    simp only [List.cons.sizeOf_spec]
                    omega
                  omega
                have hgo : goodW syms o = true := by
                  simp only [goodW.goodWList, Bool.and_eq_true] at hgl'
                  exact hgl'.1
                have hgrest : goodW.goodWList syms rest2 = true := by
                  simp only [goodW.goodWList, Bool.and_eq_true] at hgl'
                  exact hgl'.2
                have h1 := ih o hszo hgo
                cases rest2 with
                | nil =>
                    have hfs : syms.form_to_string [o] = syms.serialize_object o := by
                      simp [Symbols.form_to_string]
                    have ht : (toksOf.toksOfList syms [o]).length
                        = (toksOf syms o).length := by
                      simp [toksOf.toksOfList]
                    rw [hfs, ht]
                    exact h1
                | cons o2 rest3 =>
                    have h2 := ihl hszrest hgrest
                    have hfs : (syms.form_to_string (o :: o2 :: rest3)).data
                        = (syms.serialize_object o).data ++
                            (' ' :: (syms.form_to_string (o2 :: rest3)).data) := by
                      show ((syms.serialize_object o ++ " " ++
                              syms.form_to_string (o2 :: rest3)).data) = _
                      simp [String.data_append]
                    have ht : (toksOf.toksOfList syms (o :: o2 :: rest3)).length
                        = (toksOf syms o).length +
                            (toksOf.toksOfList syms (o2 :: rest3)).length := by
                      simp [toksOf.toksOfList]
                    rw [hfs, ht]
                    simp only [List.length_append, List.length_cons]
                    omega
          have h3 := inner l hszl hgl
          have ht : (toksOf syms (.list l)).length
              = (toksOf.toksOfList syms l).length + 2 := by
            simp [toksOf]
          rw [ht, hd]
          simp only [List.length_append, List.length_cons, List.length_singleton]
          omega
      | specialForm sf => simp [goodW] at hg
      | native ps nid => simp [goodW] at hg
      | lambda ps body => simp [goodW] at hg
      | mac ps body => simp [goodW] at hg

/-- `parse_sexp` consumes at most one loop iteration per token of a
C2-fragment stream, so the fuel budget `tokens + 1` covers the parse. -/
theorem niters_le (syms : Symbols) :
    ∀ (v : LispObject), goodW syms v = true →
      nitersOf v ≤ (toksOf syms v).length := by
  suffices H : ∀ (n : Nat) (v : LispObject), sizeOf v ≤ n → goodW syms v = true →
      nitersOf v ≤ (toksOf syms v).length by
    exact fun v hg => H (sizeOf v) v (Nat.le_refl _) hg
  intro n
  induction n with
  | zero =>
      intro v hsz
      exfalso
      cases v <;> simp at hsz
  | succ n ih =>
      intro v hsz hg
      cases v with
      | bool b => cases b <;> exact Nat.le_refl 1
      | number q => exact Nat.le_refl 1
      | string s =>
          by_cases hne : s.data = [] <;> simp [toksOf, hne, nitersOf]
      | symbol i => simp [toksOf, nitersOf]
      | list l =>
          have hgl : goodW.goodWList syms l = true := by simpa [goodW] using hg
          have hszl : sizeOf l ≤ n := by
            simp only [LispObject.list.sizeOf_spec] at hsz
            omega
          have inner : ∀ (l' : List LispObject), sizeOf l' ≤ n →
              goodW.goodWList syms l' = true →
              nitersOf.nitersOfList l' ≤ (toksOf.toksOfList syms l').length := by
            intro l'
            induction l' with
            | nil => intro _ _; simp [nitersOf.nitersOfList, toksOf.toksOfList]
            | cons o rest2 ihl =>
                intro hszl' hgl'
                have hszo : sizeOf o ≤ n := by
                  have : sizeOf o < sizeOf (o :: rest2) := by
                    simp only [List.cons.sizeOf_spec]
                    omega
                  omega
                have hszrest : sizeOf rest2 ≤ n := by
                  have : sizeOf rest2 < sizeOf (o :: rest2) := by
                    simp only [List.cons.sizeOf_spec]
                    omega
                  omega
                have hgo : goodW syms o = true := by
                  simp only [goodW.goodWList, Bool.and_eq_true] at hgl'
                  exact hgl'.1
                have hgrest : goodW.goodWList syms rest2 = true := by
                  simp only [goodW.goodWList, Bool.and_eq_true] at hgl'
                  exact hgl'.2
                have h1 := ih o hszo hgo
                have h2 := ihl hszrest hgrest
                show nitersOf o + nitersOf.nitersOfList rest2 ≤
                    (toksOf syms o ++ toksOf.toksOfList syms rest2).length
                simp only [List.length_append]
                omega
          have h3 := inner l hszl hgl
          show 2 + nitersOf.nitersOfList l ≤
              (Tokens.object .lbrace ::
                (toksOf.toksOfList syms l ++ [.object .rbrace])).length
          simp only [List.length_cons, List.length_append, List.length_singleton]
          omega
      | specialForm sf => simp [goodW] at hg
      | native ps nid => simp [goodW] at hg
      | lambda ps body => simp [goodW] at hg
      | mac ps body => simp [goodW] at hg

/-- Running `parse_sexp` on the token stream of one C2-fragment value
followed by arbitrary further tokens consumes exactly the value's
iteration count, routes the completed value through `handle_obj` against
the current frame stack, and leaves the interner unchanged. -/
theorem parseSexp_toks (syms : Symbols) :
    ∀ (v : LispObject), goodW syms v = true →
      ∀ (fuel : Nat) (stk : List ReaderFrame) (rest : List Tokens),
        parseSexp (fuel + nitersOf v) syms ⟨stk⟩ (toksOf syms v ++ rest)
          = stepRes syms fuel rest (handleObj syms stk v) := by
  suffices H : ∀ (n : Nat) (v : LispObject), sizeOf v ≤ n → goodW syms v = true →
      ∀ (fuel : Nat) (stk : List ReaderFrame) (rest : List Tokens),
        parseSexp (fuel + nitersOf v) syms ⟨stk⟩ (toksOf syms v ++ rest)
          = stepRes syms fuel rest (handleObj syms stk v) by
    exact fun v hg fuel stk rest => H (sizeOf v) v (Nat.le_refl _) hg fuel stk rest
  intro n
  induction n with
  | zero =>
      intro v hsz
      exfalso
      cases v <;> simp at hsz
  | succ n ih =>
      intro v hsz hg fuel stk rest
      cases v with
      | bool b =>
          cases b with
          | true =>
              show parseSexp (fuel + 1) syms ⟨stk⟩ (.object .trueT :: rest)
                  = stepRes syms fuel rest (handleObj syms stk (.bool true))
              cases hh : handleObj syms stk (.bool true) with
              | mk o s'' => cases o <;> simp [parseSexp, stepRes, hh]
          | false =>
              show parseSexp (fuel + 1) syms ⟨stk⟩ (.object .falseT :: rest)
                  = stepRes syms fuel rest (handleObj syms stk (.bool false))
              cases hh : handleObj syms stk (.bool false) with
              | mk o s'' => cases o <;> simp [parseSexp, stepRes, hh]
      | number q =>
          show parseSexp (fuel + 1) syms ⟨stk⟩ (.object (.number q) :: rest)
              = stepRes syms fuel rest (handleObj syms stk (.number q))
          cases hh : handleObj syms stk (.number q) with
          | mk o s'' => cases o <;> simp [parseSexp, stepRes, hh]
      | string s =>
          have hes : ("" ++ s : String) = s := rfl
          by_cases hne : s.data = []
          · have hs0 : s = "" := by
              cases s with
              | mk d => simp only at hne; rw [hne]
            subst hs0
            show parseSexp (fuel + 1) syms ⟨stk⟩
                (.object .startString :: .string .endString :: rest)
                = stepRes syms fuel rest (handleObj syms stk (.string ""))
            cases hh : handleObj syms stk (.string "") with
            | mk o s'' => cases o <;> simp [parseSexp, parseString, stepRes, hh]
          · have ht : toksOf syms (.string s)
                = [.object .startString, .string (.text s), .string .endString] := by
              simp [toksOf, hne]
            rw [ht, show nitersOf (.string s) = 1 from rfl]
            cases hh : handleObj syms stk (.string s) with
            | mk o s'' =>
                cases o <;> simp [parseSexp, parseString, stepRes, hes, hh]
      | symbol i =>
          obtain ⟨nm, hnm, hpl, hlook⟩ : ∃ nm, syms.as_string i = some nm ∧
              plainName nm = true ∧ syms.registry.lookup nm = some i := by
            cases h : syms.as_string i with
            | none => rw [goodW, h] at hg; cases hg
            | some nm =>
                rw [goodW, h] at hg
                simp only [Bool.and_eq_true] at hg
                exact ⟨nm, rfl, hg.1, eq_of_beq hg.2⟩
          have ht : toksOf syms (.symbol i) = [.object (.symbol nm)] := by
            simp [toksOf, hnm]
          rw [ht, show nitersOf (.symbol i) = 1 from rfl]
          have hsymb : syms.symbol nm = (.symbol i, syms) := by
            simp [Symbols.symbol, intern_of_lookup syms nm i hlook]
          cases hh : handleObj syms stk (.symbol i) with
          | mk o s'' => cases o <;> simp [parseSexp, hsymb, stepRes, hh]
      | list l =>
          have hgl : goodW.goodWList syms l = true := by simpa [goodW] using hg
          have hszl : sizeOf l ≤ n := by
            simp only [LispObject.list.sizeOf_spec] at hsz
            omega
          have inner : ∀ (l' : List LispObject), sizeOf l' ≤ n →
              goodW.goodWList syms l' = true →
              ∀ (fuel' : Nat) (acc : List LispObject) (rest' : List Tokens),
              parseSexp (fuel' + nitersOf.nitersOfList l') syms
                  ⟨.sexpr acc :: stk⟩ (toksOf.toksOfList syms l' ++ rest')
                = parseSexp fuel' syms ⟨.sexpr (acc ++ l') :: stk⟩ rest' := by
            intro l'
            induction l' with
            | nil =>
                intro _ _ fuel' acc rest'
                simp [nitersOf.nitersOfList, toksOf.toksOfList]
            | cons o rest2 ihl =>
                intro hszl' hgl' fuel' acc rest'
                have hszo : sizeOf o ≤ n := by
                  have : sizeOf o < sizeOf (o :: rest2) := by
                    simp only [List.cons.sizeOf_spec]
                    omega
                  omega
                have hszrest : sizeOf rest2 ≤ n := by
                  have : sizeOf rest2 < sizeOf (o :: rest2) := by
                    simp only [List.cons.sizeOf_spec]
                    omega
                  omega
                have hgo : goodW syms o = true := by
                  simp only [goodW.goodWList, Bool.and_eq_true] at hgl'
                  exact hgl'.1
                have hgrest : goodW.goodWList syms rest2 = true := by
                  simp only [goodW.goodWList, Bool.and_eq_true] at hgl'
                  exact hgl'.2
                show parseSexp (fuel' + (nitersOf o + nitersOf.nitersOfList rest2))
                    syms ⟨.sexpr acc :: stk⟩
                    ((toksOf syms o ++ toksOf.toksOfList syms rest2) ++ rest')
                    = parseSexp fuel' syms ⟨.sexpr (acc ++ (o :: rest2)) :: stk⟩ rest'
                have harith : fuel' + (nitersOf o + nitersOf.nitersOfList rest2)
                    = (fuel' + nitersOf.nitersOfList rest2) + nitersOf o := by omega
                rw [harith, List.append_assoc]
                rw [ih o hszo hgo (fuel' + nitersOf.nitersOfList rest2)
                    (.sexpr acc :: stk) (toksOf.toksOfList syms rest2 ++ rest')]
                have hho : handleObj syms (ReaderFrame.sexpr acc :: stk) o
                    = (none, .sexpr (acc ++ [o]) :: stk) := rfl
                rw [hho]
                show parseSexp (fuel' + nitersOf.nitersOfList rest2) syms
                    ⟨.sexpr (acc ++ [o]) :: stk⟩
                    (toksOf.toksOfList syms rest2 ++ rest') = _
                rw [ihl hszrest hgrest fuel' (acc ++ [o]) rest']
                simp
          show parseSexp (fuel + (2 + nitersOf.nitersOfList l)) syms ⟨stk⟩
              ((Tokens.object .lbrace ::
                (toksOf.toksOfList syms l ++ [.object .rbrace])) ++ rest)
              = stepRes syms fuel rest (handleObj syms stk (.list l))
          have harith : fuel + (2 + nitersOf.nitersOfList l)
              = (((fuel + 1) + nitersOf.nitersOfList l)) + 1 := by omega
          rw [harith]
          simp only [List.cons_append, List.append_assoc, List.singleton_append,
            List.nil_append]
          have h1 : parseSexp ((((fuel + 1) + nitersOf.nitersOfList l)) + 1) syms
                ⟨stk⟩ (Tokens.object .lbrace ::
                  (toksOf.toksOfList syms l ++ .object .rbrace :: rest))
              = parseSexp ((fuel + 1) + nitersOf.nitersOfList l) syms
                  ⟨.sexpr [] :: stk⟩
                  (toksOf.toksOfList syms l ++ .object .rbrace :: rest) := rfl
          rw [h1, inner l hszl hgl (fuel + 1) [] (.object .rbrace :: rest)]
          simp only [List.nil_append]
          cases hh : handleObj syms stk (.list l) with
          | mk o s'' => cases o <;> simp [parseSexp, stepRes, hh]
      | specialForm sf => simp [goodW] at hg
      | native ps nid => simp [goodW] at hg
      | lambda ps body => simp [goodW] at hg
      | mac ps body => simp [goodW] at hg

/-- Claim C2 (amended): for every value in the C2 fragment — built only
from `Bool`s, integral `Number`s, `String`s free of `"` and `\`,
`Symbol`s interned under a plain name, and `List`s of such values, in
particular containing no `Native`, `SpecialForm`, `Lambda` or `Macro`
node — feeding the value's serialization to a fresh `Reader` yields
exactly one completed value, structurally equal to the original, with
the interner unchanged and the reader's frame stack empty again. -/
theorem read_serialize_roundtrip (syms : Symbols) (v : LispObject)
    (hg : goodW syms v = true) :
    Reader.new.feedChunk syms (syms.serialize_object v)
      = .ok (syms, Reader.new, [v]) := by
  have hdlen : (syms.serialize_object v).length
      = (syms.serialize_object v).data.length := rfl
  have hnt := ntoks_le syms v hg
  have hlex : lexObjects (syms.serialize_object v) = toksOf syms v := by
    rw [lexObjects]
    have harith : (syms.serialize_object v).length + 1
        = ((syms.serialize_object v).length + 1 - (toksOf syms v).length)
            + (toksOf syms v).length := by omega
    rw [harith]
    have h := lexAll_serialize syms v hg
      ((syms.serialize_object v).length + 1 - (toksOf syms v).length) []
      (Or.inl rfl)
    rw [List.append_nil] at h
    rw [h, lexAll_nil, List.append_nil]
  rw [Reader.feedChunk, hlex]
  rw [show (syms.serialize_object v).length + 2
      = ((syms.serialize_object v).length + 1) + 1 from rfl]
  have hni := niters_le syms v hg
  have hps : parseSexp ((toksOf syms v).length + 1) syms Reader.new (toksOf syms v)
      = .ok (some v, syms, Reader.new, []) := by
    show parseSexp ((toksOf syms v).length + 1) syms ⟨[]⟩ (toksOf syms v)
        = .ok (some v, syms, ⟨[]⟩, [])
    have harith2 : (toksOf syms v).length + 1
        = ((toksOf syms v).length + 1 - nitersOf v) + nitersOf v := by omega
    rw [harith2]
    have h := parseSexp_toks syms v hg
      ((toksOf syms v).length + 1 - nitersOf v) [] []
    rw [List.append_nil] at h
    rw [h]
    rfl
  have hstep1 : feedLoop (((syms.serialize_object v).length + 1) + 1) syms
        Reader.new [] (toksOf syms v)
      = feedLoop ((syms.serialize_object v).length + 1) syms Reader.new
          ([] ++ [v]) [] := by
    rw [feedLoop, hps]
  rw [hstep1]
  show feedLoop ((syms.serialize_object v).length + 1) syms Reader.new [v] []
      = Except.ok (syms, Reader.new, [v])
  rw [feedLoop]
  rfl

/-- Witness for C2's amended round-trip: the concrete fragment value
`(#t 2 "hi" quote)` (a list of a boolean, an integral number, a quote-free
string and the pre-interned symbol id 1) is in the fragment and
round-trips through serialization and a fresh reader. -/
theorem read_serialize_roundtrip_witness :
    goodW Symbols.new
        (.list [.bool true, .number 2, .string "hi", .symbol 1]) = true ∧
    Reader.new.feedChunk Symbols.new
        (Symbols.new.serialize_object
          (.list [.bool true, .number 2, .string "hi", .symbol 1]))
      = .ok (Symbols.new, Reader.new,
          [.list [.bool true, .number 2, .string "hi", .symbol 1]]) :=
  ⟨by decide, read_serialize_roundtrip Symbols.new
    (.list [.bool true, .number 2, .string "hi", .symbol 1]) (by decide)⟩

/-- Witness for C9: the fresh interner is well-formed and the four
interner properties hold there for the names `alpha`/`beta`. -/
theorem c9_interner_bijection_witness :
    SymbolsWf Symbols.new ∧
    ((Symbols.new.intern "alpha").2.intern "alpha" = Symbols.new.intern "alpha") ∧
    ((Symbols.new.intern "alpha").2.as_string (Symbols.new.intern "alpha").1
      = some "alpha") ∧
    ("alpha" ≠ "beta" →
      ((Symbols.new.intern "alpha").2.intern "beta").1 ≠ (Symbols.new.intern "alpha").1) ∧
    (Symbols.new.registry.lookup "alpha" = none →
      ∀ p ∈ Symbols.new.registry, p.2 < (Symbols.new.intern "alpha").1) :=
  ⟨by decide, c9_interner_bijection Symbols.new (by decide) "alpha" "beta"⟩

/-- Claim C1: for the input text `(+ 1 (+ 2 "x"))`, evaluation fails
inside the inner `+` (with "Expected a number" and trace `[2, 2]`),
exactly one top-level frame is recorded, and running the trace/frame
reconstruction on it returns a rendering equal to the serialized form
`(+ 1 (+ 2 "x"))` together with the highlight span `[10, 13)`, which
covers exactly the substring `"x"` (quotes included) and nothing else. -/
theorem c1_trace_reconstruction :
    Reader.new.feedChunk InterpSt.new.symbols c1Input
      = .ok (InterpSt.new.symbols, Reader.new, [c1Form]) ∧
    evalTop InterpSt.new c1Form
      = (.err { message := "Expected a number",
                frames := [(c1Form, [2, 2], some ":in:")], trace := [] },
         InterpSt.new) ∧
    frameExcerpts InterpSt.new.symbols
        { message := "Expected a number",
          frames := [(c1Form, [2, 2], some ":in:")], trace := [] }
      = [("(+ 1 (+ 2 \"x\"))", 10, 13, some ":in:")] ∧
    InterpSt.new.symbols.serialize_object c1Form = "(+ 1 (+ 2 \"x\"))" ∧
    ("(+ 1 (+ 2 \"x\"))".toList.drop 10).take (13 - 10) = ['"', 'x', '"'] :=
  ⟨rfl, rfl, rfl, rfl, rfl⟩

/-- Claim C2 counterexample: the value `Lambda([], [])` contains no
`Native` and no `SpecialForm` node, yet feeding its serialization
`"(fn () )"` to a fresh reader yields the plain two-element list
`(fn ())`, which is not structurally equal to the original value — so
`read(serialize v) = v` fails as stated. -/
theorem c2_roundtrip_counterexample :
    noNativeSF c2Bad = true ∧
    Symbols.new.serialize_object c2Bad = "(fn () )" ∧
    Reader.new.feedChunk Symbols.new (Symbols.new.serialize_object c2Bad)
      = .ok (Symbols.new, Reader.new, [.list [.symbol Symbols.new.sym_fn, .list []]]) ∧
    LispObject.list [.symbol Symbols.new.sym_fn, .list []] ≠ c2Bad :=
  ⟨rfl, rfl, rfl, fun h => LispObject.noConfusion h⟩

/-- Claim C7: feeding `"(+ 1"` and then `" 2)"` to two successive
`partial` calls on the same reader produces no completed form after the
first call and exactly one — structurally equal to `(+ 1 2)` — after the
second; the pending frame-stack depth is positive after the first call
and zero after the second. -/
theorem c7_reader_continuation :
    Reader.new.feedChunk Symbols.new "(+ 1"
      = .ok ((Symbols.new.intern "+").2,
             ⟨[.sexpr [.symbol (Symbols.new.intern "+").1, .number 1]]⟩, []) ∧
    0 < (Reader.mk [.sexpr [.symbol (Symbols.new.intern "+").1, .number 1]]).len ∧
    (Reader.mk [.sexpr [.symbol (Symbols.new.intern "+").1, .number 1]]).feedChunk
        (Symbols.new.intern "+").2 " 2)"
      = .ok ((Symbols.new.intern "+").2, Reader.new,
             [.list [.symbol (Symbols.new.intern "+").1, .number 1, .number 2]]) ∧
    Reader.new.len = 0 :=
  ⟨rfl, by decide, rfl, rfl⟩

/-- Claim C8 (against the `lexer.rs` in the tree): the normal-mode lexer
declares *no* reader-macro prefix tokens, so inputs whose next
non-whitespace characters begin with a quote, backtick, comma or
comma-at are folded into the catch-all symbol token instead of the
dedicated prefix tokens the claim (and `reader.rs::parse_sexp`, which
matches on them) requires. -/
theorem c8_lexer_folds_prefixes_into_symbol :
    lexObjects "'x" = [.object (.symbol "'x")] ∧
    lexObjects "`x" = [.object (.symbol "`x")] ∧
    lexObjects ",x" = [.object (.symbol ",x")] ∧
    lexObjects ",@x" = [.object (.symbol ",@x")] :=
  ⟨rfl, rfl, rfl, rfl⟩

/-- Claim C10: applying the native `first` to the empty list indexes
position 0 of an empty vector with no emptiness guard and panics (the
total embedding's panic branch) instead of returning an `EvalError` —
also end-to-end for `(first (quote ()))` — while `rest` explicitly
guards the empty case and returns the empty list, and `first` on any
non-empty list returns (a copy of) its head. -/
theorem c10_first_empty_list_panics :
    applyNative .first [.list []] = .panic "index out of bounds" ∧
    (∀ (x : LispObject) (xs : List LispObject),
        applyNative .first [.list (x :: xs)] = .ok x) ∧
    applyNative .rest [.list []] = .ok (.list []) ∧
    eval topFuel InterpSt.new
        (.list [.symbol (InterpSt.new.symbols.intern "first").1,
                .list [.symbol (InterpSt.new.symbols.intern "quote").1, .list []]])
      = (.panic "index out of bounds", InterpSt.new) :=
  ⟨rfl, fun _ _ => rfl, rfl, rfl⟩

end Risp
